import Mathlib

/-!
Verification of the CLI-Manager task-tree engine and its storage orchestration.

The repository stores tasks as an ordered forest of nodes, each node owning an
ordered list of subtasks.  `Storage.ts` wraps every engine mutation with a full
document save followed by an optional git synchronization; the controller
(`ActionHandler`) builds partial attribute records and manages groups and
templates inside the metadata registry.

The task-tree engine itself (`Task.ts` / `TaskList.ts`) is not part of the
sources available here; its operations are modelled from the specification
(section 4.2 of the design document) and marked as such in their doc comments.
Everything concerning `Storage.save`, the group management branch and the
template handling branch of `ActionHandler.handleAction` is translated
directly from the TypeScript sources.
-/

deriving instance DecidableEq for Except

open scoped List

namespace CLIManager

/-- One entry of the ordered `meta.states` registry (`Storage.ts`, `TaskState`). -/
structure TaskState where
  name : String
  hexColor : String
  icon : String
deriving DecidableEq, Repr

/-- One entry of the `meta.groups` registry (`Storage.ts`, `TaskGroup`). -/
structure TaskGroup where
  name : String
  hexColor : String
deriving DecidableEq, Repr

/-- The scalar attributes of a task node (`ITask` in `Task.ts`): `id`, `name`
and `state` are always present, the remaining attributes are optional and an
absent optional attribute is distinct from a present-but-empty one. -/
structure TaskAttrs where
  id : Nat
  name : String
  state : String
  description : Option String
  priority : Option Nat
  group : Option String
  dueDate : Option String
deriving DecidableEq, Repr

/-- A task node: its scalar attributes plus the ordered list of subtasks it
owns exclusively (spec section 3: ownership forms a forest of finite trees). -/
inductive Task : Type where
  | mk (attrs : TaskAttrs) (subtasks : List Task)

mutual

def Task.decEq : (a b : Task) → Decidable (a = b)
  | .mk a1 s1, .mk a2 s2 =>
    if h1 : a1 = a2 then
      match Task.decEqList s1 s2 with
      | isFalse h => isFalse (by intro he; cases he; exact h rfl)
      | isTrue h2 => isTrue (by rw [h1, h2])
    else isFalse (by intro he; cases he; exact h1 rfl)

def Task.decEqList : (a b : List Task) → Decidable (a = b)
  | [], [] => isTrue rfl
  | [], _ :: _ => isFalse (by simp)
  | _ :: _, [] => isFalse (by simp)
  | x :: xs, y :: ys =>
    match Task.decEq x y, Task.decEqList xs ys with
    | isTrue h1, isTrue h2 => isTrue (by rw [h1, h2])
    | isFalse h, _ => isFalse (by intro he; injection he; exact h (by assumption))
    | _, isFalse h => isFalse (by intro he; injection he; exact h (by assumption))

end

instance : DecidableEq Task := Task.decEq

/-- Scalar attributes of the node. -/
def Task.attrs : Task → TaskAttrs
  | .mk a _ => a

/-- Ordered subtask list of the node. -/
def Task.subtasks : Task → List Task
  | .mk _ s => s

/-- Identifier of the node. -/
def Task.id (t : Task) : Nat := t.attrs.id

@[simp] theorem Task.attrs_mk (a : TaskAttrs) (s : List Task) : (Task.mk a s).attrs = a := rfl

@[simp] theorem Task.subtasks_mk (a : TaskAttrs) (s : List Task) : (Task.mk a s).subtasks = s := rfl

@[simp] theorem Task.id_mk (a : TaskAttrs) (s : List Task) : (Task.mk a s).id = a.id := rfl

/-- Attribute bundle of a template subtask skeleton: like a task but with no
identifier, and only the name mandatory (`meta.templates[..].subtasks` stores
`ITask` bundles; the template-add branch of `ActionHandler` builds them from
bare names). -/
structure SkelAttrs where
  name : String
  state : Option String
  description : Option String
  priority : Option Nat
  group : Option String
  dueDate : Option String
deriving DecidableEq, Repr

/-- A subtask skeleton stored inside a template: an attribute bundle plus
nested skeletons. -/
inductive Skel : Type where
  | mk (attrs : SkelAttrs) (subtasks : List Skel)

mutual

def Skel.decEq : (a b : Skel) → Decidable (a = b)
  | .mk a1 s1, .mk a2 s2 =>
    if h1 : a1 = a2 then
      match Skel.decEqList s1 s2 with
      | isFalse h => isFalse (by intro he; cases he; exact h rfl)
      | isTrue h2 => isTrue (by rw [h1, h2])
    else isFalse (by intro he; cases he; exact h1 rfl)

def Skel.decEqList : (a b : List Skel) → Decidable (a = b)
  | [], [] => isTrue rfl
  | [], _ :: _ => isFalse (by simp)
  | _ :: _, [] => isFalse (by simp)
  | x :: xs, y :: ys =>
    match Skel.decEq x y, Skel.decEqList xs ys with
    | isTrue h1, isTrue h2 => isTrue (by rw [h1, h2])
    | isFalse h, _ => isFalse (by intro he; injection he; exact h (by assumption))
    | _, isFalse h => isFalse (by intro he; injection he; exact h (by assumption))

end

instance : DecidableEq Skel := Skel.decEq

/-- One entry of the `meta.templates` registry (`Storage.ts`, `TaskTemplate`). -/
structure TaskTemplate where
  name : String
  subtasks : List Skel
deriving DecidableEq

/-- The metadata registries of a storage document (`Storage.ts`, `Meta`); the
constructor of `Storage` normalizes absent `groups`/`templates` to `[]`, so
both are plain lists here. -/
structure Meta where
  states : List TaskState
  groups : List TaskGroup
  templates : List TaskTemplate
deriving DecidableEq

/-- A whole storage document (`Storage.ts`, `StorageFile`). -/
structure StorageFile where
  meta : Meta
  datas : List Task
deriving DecidableEq

/-! ### Identifiers present in a forest -/

mutual

/-- All identifiers inside one task subtree, in depth-first preorder. -/
def taskIds : Task → List Nat
  | .mk a subs => a.id :: forestIds subs

/-- All identifiers inside a forest, in depth-first preorder. -/
def forestIds : List Task → List Nat
  | [] => []
  | t :: ts => taskIds t ++ forestIds ts

end

@[simp] theorem taskIds_mk (a : TaskAttrs) (subs : List Task) :
    taskIds (.mk a subs) = a.id :: forestIds subs := by
  rw [taskIds]

@[simp] theorem forestIds_nil : forestIds [] = [] := by rw [forestIds]

@[simp] theorem forestIds_cons (t : Task) (ts : List Task) :
    forestIds (t :: ts) = taskIds t ++ forestIds ts := by
  rw [forestIds]

theorem forestIds_append (l r : List Task) :
    forestIds (l ++ r) = forestIds l ++ forestIds r := by
  induction l with
  | nil => simp
  | cons t ts ih => simp [ih]

theorem id_mem_taskIds (t : Task) : t.id ∈ taskIds t := by
  cases t with
  | mk a subs => simp

/-- Modelled from the spec: `allocateIdentifier` of the task-tree engine
(`TaskList.ts`, absent from the sources) — "returns one greater than the
maximum identifier currently present anywhere in the forest (or 0 if the
forest is empty)". -/
def allocateIdentifier (tasks : List Task) : Nat :=
  match forestIds tasks with
  | [] => 0
  | ids => ids.foldl Nat.max 0 + 1

theorem le_foldl_max (l : List Nat) (a : Nat) : a ≤ l.foldl Nat.max a := by
  induction l generalizing a with
  | nil => simp
  | cons x xs ih => exact le_trans (Nat.le_max_left a x) (ih (Nat.max a x))

theorem mem_le_foldl_max (l : List Nat) (a i : Nat) (h : i ∈ l) : i ≤ l.foldl Nat.max a := by
  induction l generalizing a with
  | nil => cases h
  | cons x xs ih =>
    rcases List.mem_cons.mp h with rfl | hx
    · exact le_trans (Nat.le_max_right a i) (le_foldl_max xs (Nat.max a i))
    · exact ih (Nat.max a x) hx

theorem lt_allocateIdentifier (tasks : List Task) (i : Nat) (h : i ∈ forestIds tasks) :
    i < allocateIdentifier tasks := by
  unfold allocateIdentifier
  cases hids : forestIds tasks with
  | nil => rw [hids] at h; cases h
  | cons x xs =>
    rw [hids] at h
    exact Nat.lt_succ_of_le (mem_le_foldl_max (x :: xs) 0 i h)

/-! ### Lookup, attach, detach (modelled from the spec, section 4.2:
`TaskList.ts` is not among the available sources) -/

mutual

/-- Modelled from the spec: `find` / `TaskList.retrieveTask` — depth-first
search across the forest, roots first, then each root's subtasks recursively,
preserving declared order; returns the matched subtree, `none` when no task
has the given id. -/
def retrieveTask (i : Nat) : List Task → Option Task
  | [] => none
  | t :: ts =>
    match retrieveInTask i t with
    | some r => some r
    | none => retrieveTask i ts

/-- Depth-first lookup inside one subtree. -/
def retrieveInTask (i : Nat) : Task → Option Task
  | .mk a subs => if a.id = i then some (.mk a subs) else retrieveTask i subs

end

@[simp] theorem retrieveTask_nil (i : Nat) : retrieveTask i [] = none := by
  rw [retrieveTask]

theorem retrieveTask_cons (i : Nat) (t : Task) (ts : List Task) :
    retrieveTask i (t :: ts) =
      match retrieveInTask i t with
      | some r => some r
      | none => retrieveTask i ts := by
  rw [retrieveTask]

theorem retrieveInTask_def (i : Nat) (a : TaskAttrs) (subs : List Task) :
    retrieveInTask i (.mk a subs) =
      if a.id = i then some (.mk a subs) else retrieveTask i subs := by
  rw [retrieveInTask]

mutual

/-- Modelled from the spec: appending a task as the last child of the first
task found with identifier `p` (used by `insert` with a parent and by the
re-attach phase of `move`); `none` when no task has identifier `p`. -/
def attachChild (p : Nat) (c : Task) : List Task → Option (List Task)
  | [] => none
  | t :: ts =>
    match attachInTask p c t with
    | some t' => some (t' :: ts)
    | none => (attachChild p c ts).map (t :: ·)

/-- Attach inside one subtree. -/
def attachInTask (p : Nat) (c : Task) : Task → Option Task
  | .mk a subs =>
    if a.id = p then some (.mk a (subs ++ [c]))
    else (attachChild p c subs).map (.mk a ·)

end

@[simp] theorem attachChild_nil (p : Nat) (c : Task) : attachChild p c [] = none := by
  rw [attachChild]

theorem attachChild_cons (p : Nat) (c t : Task) (ts : List Task) :
    attachChild p c (t :: ts) =
      match attachInTask p c t with
      | some t' => some (t' :: ts)
      | none => (attachChild p c ts).map (t :: ·) := by
  rw [attachChild]

theorem attachInTask_def (p : Nat) (c : Task) (a : TaskAttrs) (subs : List Task) :
    attachInTask p c (.mk a subs) =
      if a.id = p then some (.mk a (subs ++ [c]))
      else (attachChild p c subs).map (.mk a ·) := by
  rw [attachInTask]

mutual

/-- Modelled from the spec: detaching the first subtree whose root has
identifier `i` from the forest, returning the remaining forest and the
detached subtree (`remove` discards it, `move` re-attaches it). -/
def detachTask (i : Nat) : List Task → Option (List Task × Task)
  | [] => none
  | t :: ts =>
    if t.id = i then some (ts, t)
    else
      match detachInTask i t with
      | some (t', s) => some (t' :: ts, s)
      | none =>
        match detachTask i ts with
        | some (ts', s) => some (t :: ts', s)
        | none => none

/-- Detach inside one subtree's subtask list; the root of the subtree itself
is handled by the caller. -/
def detachInTask (i : Nat) : Task → Option (Task × Task)
  | .mk a subs =>
    match detachTask i subs with
    | some (subs', s) => some (.mk a subs', s)
    | none => none

end

@[simp] theorem detachTask_nil (i : Nat) : detachTask i [] = none := by
  rw [detachTask]

theorem detachTask_cons (i : Nat) (t : Task) (ts : List Task) :
    detachTask i (t :: ts) =
      if t.id = i then some (ts, t)
      else
        match detachInTask i t with
        | some (t', s) => some (t' :: ts, s)
        | none =>
          match detachTask i ts with
          | some (ts', s) => some (t :: ts', s)
          | none => none := by
  rw [detachTask]

theorem detachInTask_def (i : Nat) (a : TaskAttrs) (subs : List Task) :
    detachInTask i (.mk a subs) =
      match detachTask i subs with
      | some (subs', s) => some (.mk a subs', s)
      | none => none := by
  rw [detachInTask]

/-! ### Engine errors and mutating operations (modelled from the spec,
sections 4.2 and 7) -/

/-- The error taxonomy of the engine (spec section 7). -/
inductive EngineError where
  | notFound (id : Nat)
  | invalidMove
  | stateNotFound (state : String)
deriving DecidableEq, Repr

/-- The attribute record for a task about to be created, as produced by the
intent layer (`ActionHandler`, ADD_TASK branch): a name, a state (already
defaulted to the first configured state by the handler), the optional
attributes, and the subtask skeletons taken from a template when one is
named. -/
structure NewTask where
  name : String
  state : String
  description : Option String
  priority : Option Nat
  group : Option String
  dueDate : Option String
  subtasks : List Skel
deriving DecidableEq

/-- Name of the first configured state (`storage.meta.states[0].name` in the
ADD_TASK branch); the spec requires at least one configured state. -/
def defaultStateName (meta : Meta) : String :=
  match meta.states with
  | [] => ""
  | s :: _ => s.name

mutual

/-- Modelled from the spec: instantiating one template subtask skeleton as a
deep copy at creation time, numbering the fresh nodes depth-first from `base`
so that every identifier of the new subtree is fresh (spec section 3 requires
identifier uniqueness across the whole forest at all times). Returns the new
subtree and the next unused counter value. -/
def instantiateSkel (ds : String) (base : Nat) : Skel → Task × Nat
  | .mk a subs =>
    let r := instantiateSkels ds (base + 1) subs
    (.mk { id := base, name := a.name, state := a.state.getD ds,
           description := a.description, priority := a.priority,
           group := a.group, dueDate := a.dueDate } r.1, r.2)

/-- Instantiate a list of skeletons, numbering depth-first from `base`. -/
def instantiateSkels (ds : String) (base : Nat) : List Skel → List Task × Nat
  | [] => ([], base)
  | s :: ss =>
    let r1 := instantiateSkel ds base s
    let r2 := instantiateSkels ds r1.2 ss
    (r1.1 :: r2.1, r2.2)

end

/-- Build the task for `insert`: the root gets identifier `base`, the template
skeleton subtasks get the following identifiers depth-first. -/
def buildTask (nt : NewTask) (ds : String) (base : Nat) : Task :=
  .mk { id := base, name := nt.name, state := nt.state,
        description := nt.description, priority := nt.priority,
        group := nt.group, dueDate := nt.dueDate }
     (instantiateSkels ds (base + 1) nt.subtasks).1

/-- Modelled from the spec: `insert` / `TaskList.addTask` — allocates fresh
identifiers, constructs the task (template skeletons already merged into
`nt.subtasks` by the handler, applied as deep copies), and appends it as a
new root when `subTaskOf` is absent or as the last child of the task found at
`subTaskOf`; fails with `NotFound` when `subTaskOf` does not resolve. -/
def addTask (meta : Meta) (tasks : List Task) (nt : NewTask) (subTaskOf : Option Nat) :
    Except EngineError (List Task × Nat) :=
  match subTaskOf with
  | none =>
    .ok (tasks ++ [buildTask nt (defaultStateName meta) (allocateIdentifier tasks)],
      allocateIdentifier tasks)
  | some p =>
    match attachChild p (buildTask nt (defaultStateName meta) (allocateIdentifier tasks)) tasks with
    | some ts' => .ok (ts', allocateIdentifier tasks)
    | none => .error (.notFound p)

/-- A partial attribute record for `edit` (`newAttributes: ITask` built by the
EDIT branch of `ActionHandler`): only the present fields overwrite; the
identifier and the subtask list are never part of such a record. -/
structure PartialTask where
  name : Option String
  state : Option String
  description : Option String
  priority : Option Nat
  group : Option String
  dueDate : Option String
deriving DecidableEq

/-- The all-absent partial record. -/
def PartialTask.empty : PartialTask := ⟨none, none, none, none, none, none⟩

/-- Modelled from the spec: the merge performed by `edit` — overwrite only the
attributes present in the partial record, leave absent ones untouched. -/
def mergeAttrs (p : PartialTask) (a : TaskAttrs) : TaskAttrs :=
  { id := a.id
    name := p.name.getD a.name
    state := p.state.getD a.state
    description := match p.description with | some v => some v | none => a.description
    priority := match p.priority with | some v => some v | none => a.priority
    group := match p.group with | some v => some v | none => a.group
    dueDate := match p.dueDate with | some v => some v | none => a.dueDate }

mutual

/-- Apply the merge to a whole subtree (recursive edit of a matched task). -/
def editAll (p : PartialTask) : Task → Task
  | .mk a subs => .mk (mergeAttrs p a) (editAllList p subs)

def editAllList (p : PartialTask) : List Task → List Task
  | [] => []
  | t :: ts => editAll p t :: editAllList p ts

end

mutual

/-- Apply the merge to every task whose id is in `ids` (and, when `recursive`,
to all descendants of each matched task). -/
def editIn (ids : List Nat) (p : PartialTask) (recursive : Bool) : Task → Task
  | .mk a subs =>
    if ids.contains a.id then
      if recursive then .mk (mergeAttrs p a) (editAllList p subs)
      else .mk (mergeAttrs p a) (editInList ids p recursive subs)
    else .mk a (editInList ids p recursive subs)

def editInList (ids : List Nat) (p : PartialTask) (recursive : Bool) : List Task → List Task
  | [] => []
  | t :: ts => editIn ids p recursive t :: editInList ids p recursive ts

end

/-- Modelled from the spec: `edit` / `TaskList.editTask` — validates that every
requested id resolves (first unresolved id yields `NotFound`), then overwrites
only the attributes present in the partial record on each matched task, and on
every descendant too when `isRecursive` is set. -/
def editTask (tasks : List Task) (tasksID : List Nat) (p : PartialTask) (isRecursive : Bool) :
    Except EngineError (List Task) :=
  match tasksID.find? (fun i => (retrieveTask i tasks).isNone) with
  | some i => .error (.notFound i)
  | none => .ok (editInList tasksID p isRecursive tasks)

/-- Modelled from the spec: the successor of a state in the ordered Metadata
state list — `none` when the state is not configured at all (`StateNotFound`),
the same state when it is the last entry (advance is idempotent at the
terminal state), the next entry otherwise. -/
def nextStateName (states : List TaskState) (s : String) : Option String :=
  match states.findIdx? (fun st => st.name == s) with
  | none => none
  | some i =>
    match states.get? (i + 1) with
    | none => some s
    | some st => some st.name

mutual

/-- Advance pass over one subtree: `inherit` is set when an ancestor matched
with the recursive flag, in which case this node advances unconditionally. -/
def incTask (states : List TaskState) (ids : List Nat) (recursive inherit : Bool) :
    Task → Except EngineError Task
  | .mk a subs =>
    if inherit || ids.contains a.id then
      match nextStateName states a.state with
      | none => .error (.stateNotFound a.state)
      | some s' =>
        match incForest states ids recursive recursive subs with
        | .error e => .error e
        | .ok subs' => .ok (.mk { a with state := s' } subs')
    else
      match incForest states ids recursive inherit subs with
      | .error e => .error e
      | .ok subs' => .ok (.mk a subs')

def incForest (states : List TaskState) (ids : List Nat) (recursive inherit : Bool) :
    List Task → Except EngineError (List Task)
  | [] => .ok []
  | t :: ts =>
    match incTask states ids recursive inherit t with
    | .error e => .error e
    | .ok t' =>
      match incForest states ids recursive inherit ts with
      | .error e => .error e
      | .ok ts' => .ok (t' :: ts')

end

/-- Modelled from the spec: `advance` / `TaskList.incrementTask` — validates
that every requested id resolves, then moves the state of each matched task to
the next entry of the Metadata state order (a task already at the last state
is left unchanged, not an error; a state missing from the configured list is
signaled as `StateNotFound`); the recursive flag cascades the advance to all
descendants of each matched task. -/
def incrementTask (meta : Meta) (tasks : List Task) (tasksID : List Nat) (isRecursive : Bool) :
    Except EngineError (List Task) :=
  match tasksID.find? (fun i => (retrieveTask i tasks).isNone) with
  | some i => .error (.notFound i)
  | none => incForest meta.states tasksID isRecursive false tasks

/-- Modelled from the spec: `remove` / `TaskList.deleteTask` — detaches each
matched task together with its entire subtree in one operation and discards
it; an unresolved id fails with `NotFound`. -/
def deleteTask (tasks : List Task) : List Nat → Except EngineError (List Task)
  | [] => .ok tasks
  | i :: rest =>
    match detachTask i tasks with
    | none => .error (.notFound i)
    | some (ts', _) => deleteTask ts' rest

/-- Modelled from the spec: the validation phase of `move` — every source id
must resolve, the destination must resolve, and no destination may be the
moved task itself or one of its own current descendants (`InvalidMove`,
rejected before any mutation occurs). -/
def moveValidate (tasks : List Task) (ids : List Nat) (dest : Nat) : Option EngineError :=
  match ids.find? (fun i => (retrieveTask i tasks).isNone) with
  | some i => some (.notFound i)
  | none =>
    if (retrieveTask dest tasks).isNone then some (.notFound dest)
    else if ids.any (fun i =>
        match retrieveTask i tasks with
        | some s => (taskIds s).contains dest
        | none => false) then some .invalidMove
    else none

/-- The apply phase of `move`: detach each source subtree and append it as the
last child of the destination. -/
def moveApply (dest : Nat) (tasks : List Task) : List Nat → Except EngineError (List Task)
  | [] => .ok tasks
  | i :: rest =>
    match detachTask i tasks with
    | none => .error (.notFound i)
    | some (ts', s) =>
      match attachChild dest s ts' with
      | none => .error (.notFound dest)
      | some ts'' => moveApply dest ts'' rest

/-- Modelled from the spec: `move` / `TaskList.moveTask` — validate all
requested ids and the destination first (cycle attempts are rejected with
`InvalidMove` before any detach), then reparent each source subtree verbatim
as the last child of the destination. -/
def moveTask (tasks : List Task) (tasksID : List Nat) (subTaskOf : Nat) :
    Except EngineError (List Task) :=
  match moveValidate tasks tasksID subTaskOf with
  | some e => .error e
  | none => moveApply subTaskOf tasks tasksID

/-! ### Operation sequences -/

/-- One engine mutation, as dispatched by `Storage` (`addTask`, `editTask`,
`incrementTask`, `deleteTask`, `moveTask`). -/
inductive EngineOp where
  | insert (nt : NewTask) (subTaskOf : Option Nat)
  | edit (ids : List Nat) (p : PartialTask) (recursive : Bool)
  | advance (ids : List Nat) (recursive : Bool)
  | remove (ids : List Nat)
  | move (ids : List Nat) (dest : Nat)

/-- Run one engine operation on a forest. -/
def stepOp (meta : Meta) (tasks : List Task) : EngineOp → Except EngineError (List Task)
  | .insert nt p => (addTask meta tasks nt p).map (·.1)
  | .edit ids p r => editTask tasks ids p r
  | .advance ids r => incrementTask meta tasks ids r
  | .remove ids => deleteTask tasks ids
  | .move ids d => moveTask tasks ids d

/-- Run one operation; a failed operation leaves the forest unchanged (engine
operations fail fast, spec section 7). -/
def applyOp (meta : Meta) (tasks : List Task) (op : EngineOp) : List Task :=
  match stepOp meta tasks op with
  | .ok ts => ts
  | .error _ => tasks

/-- Run a sequence of engine operations. -/
def runOps (meta : Meta) (tasks : List Task) (ops : List EngineOp) : List Task :=
  ops.foldl (applyOp meta) tasks

/-! ### Lookup lemmas -/

theorem retrieveTask_append (i : Nat) (l r : List Task) :
    retrieveTask i (l ++ r) =
      match retrieveTask i l with
      | some s => some s
      | none => retrieveTask i r := by
  induction l with
  | nil => simp
  | cons t ts ih =>
    rw [List.cons_append, retrieveTask_cons, retrieveTask_cons]
    cases hr : retrieveInTask i t with
    | some s => simp
    | none => simpa using ih

mutual

theorem retrieveInTask_eq_none_iff (i : Nat) : ∀ (t : Task), retrieveInTask i t = none ↔ i ∉ taskIds t
  | .mk a subs => by
    rw [retrieveInTask_def, taskIds_mk]
    by_cases h : a.id = i
    · simp [h]
    · have ih := retrieveTask_eq_none_iff i subs
      rw [if_neg h, ih]
      constructor
      · intro hn hmem
        rcases List.mem_cons.mp hmem with rfl | hm
        · exact h rfl
        · exact hn hm
      · intro hn hm
        exact hn (List.mem_cons_of_mem _ hm)

theorem retrieveTask_eq_none_iff (i : Nat) : ∀ (ts : List Task), retrieveTask i ts = none ↔ i ∉ forestIds ts
  | [] => by simp
  | t :: ts => by
    rw [retrieveTask_cons, forestIds_cons]
    have iht := retrieveInTask_eq_none_iff i t
    have ihl := retrieveTask_eq_none_iff i ts
    cases hr : retrieveInTask i t with
    | some s =>
      have : ¬ (i ∉ taskIds t) := by
        rw [← iht, hr]; simp
      simp [List.mem_append, not_not.mp this]
    | none =>
      rw [hr] at iht
      simp [List.mem_append, ihl, iht.mp rfl]

end

theorem retrieveTask_isSome_of_mem (i : Nat) (ts : List Task) (h : i ∈ forestIds ts) :
    (retrieveTask i ts).isSome := by
  cases hr : retrieveTask i ts with
  | some s => rfl
  | none => exact absurd h ((retrieveTask_eq_none_iff i ts).mp hr)

mutual

theorem retrieveInTask_sub (i : Nat) : ∀ (t : Task) (s : Task), retrieveInTask i t = some s →
    s.id = i ∧ ∀ j ∈ taskIds s, j ∈ taskIds t
  | .mk a subs, s => by
    rw [retrieveInTask_def, taskIds_mk]
    by_cases h : a.id = i
    · simp only [h, if_pos rfl]
      intro he
      cases he
      refine ⟨h, ?_⟩
      intro j hj
      rw [taskIds_mk] at hj
      rwa [h] at hj
    · simp only [if_neg h]
      intro he
      have := retrieveTask_sub i subs s he
      exact ⟨this.1, fun j hj => List.mem_cons_of_mem _ (this.2 j hj)⟩

theorem retrieveTask_sub (i : Nat) : ∀ (ts : List Task) (s : Task), retrieveTask i ts = some s →
    s.id = i ∧ ∀ j ∈ taskIds s, j ∈ forestIds ts
  | [], s => by simp
  | t :: ts, s => by
    rw [retrieveTask_cons, forestIds_cons]
    cases hr : retrieveInTask i t with
    | some r =>
      intro he
      cases he
      have := retrieveInTask_sub i t s hr
      exact ⟨this.1, fun j hj => List.mem_append_left _ (this.2 j hj)⟩
    | none =>
      intro he
      have := retrieveTask_sub i ts s he
      exact ⟨this.1, fun j hj => List.mem_append_right _ (this.2 j hj)⟩

end

/-! ### Permutation lemmas: attaching and detaching a subtree only reshuffles
the identifier multiset -/

theorem perm_shuffle (x c y : List Nat) : x ++ (c ++ y) ~ c ++ (x ++ y) := by
  calc x ++ (c ++ y) = (x ++ c) ++ y := by rw [List.append_assoc]
    _ ~ (c ++ x) ++ y := (List.perm_append_comm).append_right y
    _ = c ++ (x ++ y) := by rw [List.append_assoc]

mutual

theorem attachChild_perm (p : Nat) (c : Task) : ∀ (ts ts' : List Task),
    attachChild p c ts = some ts' → forestIds ts' ~ taskIds c ++ forestIds ts
  | [], ts' => by simp
  | t :: ts, ts' => by
    rw [attachChild_cons]
    cases ha : attachInTask p c t with
    | some t' =>
      intro he
      cases he
      rw [forestIds_cons, forestIds_cons]
      have := attachInTask_perm p c t t' ha
      calc taskIds t' ++ forestIds ts
          ~ (taskIds c ++ taskIds t) ++ forestIds ts := this.append_right _
        _ = taskIds c ++ (taskIds t ++ forestIds ts) := by rw [List.append_assoc]
    | none =>
      cases hb : attachChild p c ts with
      | some rest' =>
        intro he
        simp only [hb, Option.map_some'] at he
        cases he
        rw [forestIds_cons, forestIds_cons]
        have := attachChild_perm p c ts rest' hb
        calc taskIds t ++ forestIds rest'
            ~ taskIds t ++ (taskIds c ++ forestIds ts) := this.append_left _
          _ ~ taskIds c ++ (taskIds t ++ forestIds ts) := perm_shuffle _ _ _
      | none => simp [hb]

theorem attachInTask_perm (p : Nat) (c : Task) : ∀ (t t' : Task),
    attachInTask p c t = some t' → taskIds t' ~ taskIds c ++ taskIds t
  | .mk a subs, t' => by
    rw [attachInTask_def]
    by_cases h : a.id = p
    · rw [if_pos h]
      intro he
      cases he
      rw [taskIds_mk, taskIds_mk, forestIds_append]
      calc a.id :: (forestIds subs ++ forestIds [c])
          = (a.id :: forestIds subs) ++ forestIds [c] := by rw [List.cons_append]
        _ ~ forestIds [c] ++ (a.id :: forestIds subs) := List.perm_append_comm
        _ = taskIds c ++ (a.id :: forestIds subs) := by simp
    · rw [if_neg h]
      cases hb : attachChild p c subs with
      | some subs' =>
        intro he
        simp only [hb, Option.map_some'] at he
        cases he
        rw [taskIds_mk, taskIds_mk]
        have := attachChild_perm p c subs subs' hb
        calc a.id :: forestIds subs'
            ~ a.id :: (taskIds c ++ forestIds subs) := this.cons a.id
          _ ~ taskIds c ++ (a.id :: forestIds subs) := (List.perm_middle).symm
      | none => simp [hb]

end

mutual

theorem detachTask_perm (i : Nat) : ∀ (ts ts' : List Task) (s : Task),
    detachTask i ts = some (ts', s) → forestIds ts ~ taskIds s ++ forestIds ts'
  | [], ts', s => by simp
  | t :: ts, ts', s => by
    rw [detachTask_cons]
    by_cases h : t.id = i
    · rw [if_pos h]
      intro he
      cases he
      rw [forestIds_cons]
    · rw [if_neg h]
      cases ha : detachInTask i t with
      | some r =>
        obtain ⟨t', s₀⟩ := r
        intro he
        cases he
        rw [forestIds_cons, forestIds_cons]
        have := detachInTask_perm i t t' s ha
        calc taskIds t ++ forestIds ts
            ~ (taskIds s ++ taskIds t') ++ forestIds ts := this.append_right _
          _ = taskIds s ++ (taskIds t' ++ forestIds ts) := by rw [List.append_assoc]
      | none =>
        cases hb : detachTask i ts with
        | some r =>
          obtain ⟨rest', s₀⟩ := r
          intro he
          cases he
          rw [forestIds_cons, forestIds_cons]
          have := detachTask_perm i ts rest' s hb
          calc taskIds t ++ forestIds ts
              ~ taskIds t ++ (taskIds s ++ forestIds rest') := this.append_left _
            _ ~ taskIds s ++ (taskIds t ++ forestIds rest') := perm_shuffle _ _ _
        | none => simp

theorem detachInTask_perm (i : Nat) : ∀ (t t' : Task) (s : Task),
    detachInTask i t = some (t', s) → taskIds t ~ taskIds s ++ taskIds t'
  | .mk a subs, t', s => by
    rw [detachInTask_def]
    cases hb : detachTask i subs with
    | some r =>
      obtain ⟨subs', s₀⟩ := r
      intro he
      cases he
      rw [taskIds_mk, taskIds_mk]
      have := detachTask_perm i subs subs' s hb
      calc a.id :: forestIds subs
          ~ a.id :: (taskIds s ++ forestIds subs') := this.cons a.id
        _ ~ taskIds s ++ (a.id :: forestIds subs') := (List.perm_middle).symm
    | none => simp

end

/-! ### Detach agrees with lookup -/

mutual

theorem detachTask_none_iff (i : Nat) : ∀ (ts : List Task),
    detachTask i ts = none ↔ retrieveTask i ts = none
  | [] => by simp
  | t :: ts => by
    rw [detachTask_cons, retrieveTask_cons]
    by_cases h : t.id = i
    · rw [if_pos h]
      cases t with
      | mk a subs =>
        rw [retrieveInTask_def, if_pos (by simpa using h)]
        simp
    · rw [if_neg h]
      have iht := detachInTask_none_iff i t h
      have ihl := detachTask_none_iff i ts
      cases ha : detachInTask i t with
      | some r =>
        obtain ⟨t', s₀⟩ := r
        have : retrieveInTask i t ≠ none := by
          intro hn
          rw [← iht] at hn
          rw [ha] at hn
          cases hn
        cases hr : retrieveInTask i t with
        | some s => simp
        | none => exact absurd hr this
      | none =>
        have hrt : retrieveInTask i t = none := iht.mp ha
        rw [hrt]
        cases hb : detachTask i ts with
        | some r =>
          obtain ⟨rest', s₀⟩ := r
          have : retrieveTask i ts ≠ none := by
            intro hn
            rw [← ihl] at hn
            rw [hb] at hn
            cases hn
          cases hq : retrieveTask i ts with
          | some s => simp
          | none => exact absurd hq this
        | none =>
          rw [ihl.mp hb]
          simp

theorem detachInTask_none_iff (i : Nat) : ∀ (t : Task), t.id ≠ i →
    (detachInTask i t = none ↔ retrieveInTask i t = none)
  | .mk a subs => by
    intro h
    rw [detachInTask_def, retrieveInTask_def, if_neg (by simpa using h)]
    have ihl := detachTask_none_iff i subs
    cases hb : detachTask i subs with
    | some r =>
      obtain ⟨subs', s₀⟩ := r
      have : retrieveTask i subs ≠ none := by
        intro hn
        rw [← ihl] at hn
        rw [hb] at hn
        cases hn
      cases hq : retrieveTask i subs with
      | some s => simp
      | none => exact absurd hq this
    | none =>
      rw [ihl.mp hb]
      simp

end

mutual

theorem detachTask_retrieve (i : Nat) : ∀ (ts ts' : List Task) (s : Task),
    detachTask i ts = some (ts', s) → retrieveTask i ts = some s
  | [], ts', s => by simp
  | t :: ts, ts', s => by
    rw [detachTask_cons, retrieveTask_cons]
    by_cases h : t.id = i
    · rw [if_pos h]
      intro he
      cases he
      cases t with
      | mk a subs => rw [retrieveInTask_def, if_pos (by simpa using h)]
    · rw [if_neg h]
      cases ha : detachInTask i t with
      | some r =>
        obtain ⟨t', s₀⟩ := r
        intro he
        cases he
        rw [detachInTask_retrieve i t t' s ha h]
      | none =>
        cases hb : detachTask i ts with
        | some r =>
          obtain ⟨rest', s₀⟩ := r
          intro he
          cases he
          rw [(detachInTask_none_iff i t h).mp ha]
          exact detachTask_retrieve i ts rest' s hb
        | none => simp

theorem detachInTask_retrieve (i : Nat) : ∀ (t t' : Task) (s : Task),
    detachInTask i t = some (t', s) → t.id ≠ i → retrieveInTask i t = some s
  | .mk a subs, t', s => by
    rw [detachInTask_def]
    cases hb : detachTask i subs with
    | some r =>
      obtain ⟨subs', s₀⟩ := r
      intro he h
      cases he
      rw [retrieveInTask_def, if_neg (by simpa using h)]
      exact detachTask_retrieve i subs subs' s hb
    | none => simp

end

/-! ### Freshness of instantiated skeleton identifiers -/

theorem instantiateSkels_nil (ds : String) (base : Nat) :
    instantiateSkels ds base [] = ([], base) := by
  rw [instantiateSkels]

theorem instantiateSkels_cons (ds : String) (base : Nat) (s : Skel) (ss : List Skel) :
    instantiateSkels ds base (s :: ss) =
      ((instantiateSkel ds base s).1 :: (instantiateSkels ds (instantiateSkel ds base s).2 ss).1,
       (instantiateSkels ds (instantiateSkel ds base s).2 ss).2) := by
  rw [instantiateSkels]

theorem instantiateSkel_def (ds : String) (base : Nat) (a : SkelAttrs) (subs : List Skel) :
    instantiateSkel ds base (.mk a subs) =
      (.mk { id := base, name := a.name, state := a.state.getD ds,
             description := a.description, priority := a.priority,
             group := a.group, dueDate := a.dueDate }
         (instantiateSkels ds (base + 1) subs).1,
       (instantiateSkels ds (base + 1) subs).2) := by
  rw [instantiateSkel]

mutual

theorem instantiateSkel_bounds (ds : String) : ∀ (base : Nat) (s : Skel),
    base < (instantiateSkel ds base s).2 ∧
    (∀ j ∈ taskIds (instantiateSkel ds base s).1, base ≤ j ∧ j < (instantiateSkel ds base s).2) ∧
    (taskIds (instantiateSkel ds base s).1).Nodup
  | base, .mk a subs => by
    have ih := instantiateSkels_bounds ds (base + 1) subs
    rw [instantiateSkel_def]
    refine ⟨lt_of_lt_of_le (Nat.lt_succ_self base) ih.1, ?_, ?_⟩
    · intro j hj
      rw [taskIds_mk] at hj
      rcases List.mem_cons.mp hj with rfl | hm
      · exact ⟨le_refl _, lt_of_lt_of_le (Nat.lt_succ_self _) ih.1⟩
      · have := ih.2.1 j hm
        exact ⟨le_trans (Nat.le_succ base) this.1, this.2⟩
    · rw [taskIds_mk, List.nodup_cons]
      refine ⟨?_, ih.2.2⟩
      intro hm
      have := (ih.2.1 base hm).1
      omega

theorem instantiateSkels_bounds (ds : String) : ∀ (base : Nat) (ss : List Skel),
    base ≤ (instantiateSkels ds base ss).2 ∧
    (∀ j ∈ forestIds (instantiateSkels ds base ss).1, base ≤ j ∧ j < (instantiateSkels ds base ss).2) ∧
    (forestIds (instantiateSkels ds base ss).1).Nodup
  | base, [] => by
    rw [instantiateSkels_nil]
    simp
  | base, s :: ss => by
    have ih1 := instantiateSkel_bounds ds base s
    have ih2 := instantiateSkels_bounds ds (instantiateSkel ds base s).2 ss
    rw [instantiateSkels_cons]
    refine ⟨le_trans (le_of_lt ih1.1) ih2.1, ?_, ?_⟩
    · intro j hj
      rw [forestIds_cons] at hj
      rcases List.mem_append.mp hj with hm | hm
      · have := ih1.2.1 j hm
        exact ⟨this.1, lt_of_lt_of_le this.2 ih2.1⟩
      · have := ih2.2.1 j hm
        exact ⟨le_trans (le_of_lt ih1.1) this.1, this.2⟩
    · rw [forestIds_cons, List.nodup_append]
      refine ⟨ih1.2.2, ih2.2.2, ?_⟩
      intro j hj hj2
      have h1 := ih1.2.1 j hj
      have h2 := ih2.2.1 j hj2
      omega

end

theorem taskIds_buildTask (nt : NewTask) (ds : String) (base : Nat) :
    taskIds (buildTask nt ds base) =
      base :: forestIds (instantiateSkels ds (base + 1) nt.subtasks).1 := by
  rw [buildTask, taskIds_mk]

theorem buildTask_bounds (nt : NewTask) (ds : String) (base : Nat) :
    (∀ j ∈ taskIds (buildTask nt ds base), base ≤ j) ∧ (taskIds (buildTask nt ds base)).Nodup := by
  have ih := instantiateSkels_bounds ds (base + 1) nt.subtasks
  rw [taskIds_buildTask]
  constructor
  · intro j hj
    rcases List.mem_cons.mp hj with rfl | hm
    · exact le_refl _
    · exact le_trans (Nat.le_succ base) (ih.2.1 j hm).1
  · rw [List.nodup_cons]
    refine ⟨?_, ih.2.2⟩
    intro hm
    have := (ih.2.1 base hm).1
    omega

theorem addTask_nodup (meta : Meta) (tasks : List Task) (nt : NewTask) (sub : Option Nat)
    (ts' : List Task) (newId : Nat) (h : addTask meta tasks nt sub = .ok (ts', newId))
    (hn : (forestIds tasks).Nodup) : (forestIds ts').Nodup := by
  have hfresh : ∀ j ∈ taskIds (buildTask nt (defaultStateName meta) (allocateIdentifier tasks)),
      ∀ i ∈ forestIds tasks, i ≠ j := by
    intro j hj i hi
    have h1 := (buildTask_bounds nt (defaultStateName meta) (allocateIdentifier tasks)).1 j hj
    have h2 := lt_allocateIdentifier tasks i hi
    omega
  have hcat : (taskIds (buildTask nt (defaultStateName meta) (allocateIdentifier tasks)) ++
      forestIds tasks).Nodup := by
    rw [List.nodup_append]
    refine ⟨(buildTask_bounds nt (defaultStateName meta) (allocateIdentifier tasks)).2, hn, ?_⟩
    intro j hj hj2
    exact hfresh j hj j hj2 rfl
  cases sub with
  | none =>
    rw [addTask] at h
    simp only [Except.ok.injEq, Prod.mk.injEq] at h
    rw [← h.1, forestIds_append]
    have : (forestIds tasks ++ taskIds (buildTask nt (defaultStateName meta) (allocateIdentifier tasks))).Nodup :=
      (List.perm_append_comm).nodup hcat
    simpa using this
  | some p =>
    rw [addTask] at h
    split at h
    · rename_i ts₂ ha
      cases h
      exact (attachChild_perm p _ tasks _ ha).symm.nodup hcat
    · cases h

/-! ### Edit and advance do not change the identifier structure -/

mutual

theorem taskIds_editAll (p : PartialTask) : ∀ (t : Task), taskIds (editAll p t) = taskIds t
  | .mk a subs => by
    rw [editAll, taskIds_mk, taskIds_mk, forestIds_editAllList p subs]
    rfl

theorem forestIds_editAllList (p : PartialTask) : ∀ (ts : List Task),
    forestIds (editAllList p ts) = forestIds ts
  | [] => by rw [editAllList]
  | t :: ts => by
    rw [editAllList, forestIds_cons, forestIds_cons, taskIds_editAll p t,
      forestIds_editAllList p ts]

end

mutual

theorem taskIds_editIn (ids : List Nat) (p : PartialTask) (r : Bool) : ∀ (t : Task),
    taskIds (editIn ids p r t) = taskIds t
  | .mk a subs => by
    rw [editIn]
    by_cases h : ids.contains a.id
    · rw [if_pos h]
      cases r with
      | true =>
        rw [if_pos rfl, taskIds_mk, taskIds_mk, forestIds_editAllList p subs]
        rfl
      | false =>
        rw [if_neg (by simp), taskIds_mk, taskIds_mk, forestIds_editInList ids p false subs]
        rfl
    · rw [if_neg h, taskIds_mk, taskIds_mk, forestIds_editInList ids p r subs]

theorem forestIds_editInList (ids : List Nat) (p : PartialTask) (r : Bool) : ∀ (ts : List Task),
    forestIds (editInList ids p r ts) = forestIds ts
  | [] => by rw [editInList]
  | t :: ts => by
    rw [editInList, forestIds_cons, forestIds_cons, taskIds_editIn ids p r t,
      forestIds_editInList ids p r ts]

end

mutual

theorem incTask_ids (states : List TaskState) (ids : List Nat) (r inh : Bool) :
    ∀ (t t' : Task), incTask states ids r inh t = .ok t' → taskIds t' = taskIds t
  | .mk a subs, t' => by
    rw [incTask]
    by_cases h : (inh || ids.contains a.id) = true
    · rw [if_pos h]
      cases hn : nextStateName states a.state with
      | none => intro he; cases he
      | some s' =>
        cases hf : incForest states ids r r subs with
        | error e => intro he; cases he
        | ok subs' =>
          intro he
          cases he
          rw [taskIds_mk, taskIds_mk, incForest_ids states ids r r subs subs' hf]
    · rw [if_neg h]
      cases hf : incForest states ids r inh subs with
      | error e => intro he; cases he
      | ok subs' =>
        intro he
        cases he
        rw [taskIds_mk, taskIds_mk, incForest_ids states ids r inh subs subs' hf]

theorem incForest_ids (states : List TaskState) (ids : List Nat) (r inh : Bool) :
    ∀ (ts ts' : List Task), incForest states ids r inh ts = .ok ts' → forestIds ts' = forestIds ts
  | [], ts' => by
    rw [incForest]
    intro he
    cases he
    rfl
  | t :: ts, ts' => by
    rw [incForest]
    cases ht : incTask states ids r inh t with
    | error e => intro he; cases he
    | ok t₂ =>
      cases hf : incForest states ids r inh ts with
      | error e => intro he; cases he
      | ok ts₂ =>
        intro he
        cases he
        rw [forestIds_cons, forestIds_cons, incTask_ids states ids r inh t t₂ ht,
          incForest_ids states ids r inh ts ts₂ hf]

end

/-! ### Every engine operation preserves identifier uniqueness -/

theorem deleteTask_nodup : ∀ (ids : List Nat) (tasks ts' : List Task),
    deleteTask tasks ids = .ok ts' → (forestIds tasks).Nodup → (forestIds ts').Nodup
  | [], tasks, ts' => by
    rw [deleteTask]
    intro he hn
    cases he
    exact hn
  | i :: rest, tasks, ts' => by
    rw [deleteTask]
    cases hd : detachTask i tasks with
    | none => intro he; cases he
    | some r =>
      obtain ⟨ts₂, s⟩ := r
      intro he hn
      have hperm := detachTask_perm i tasks ts₂ s hd
      have : (taskIds s ++ forestIds ts₂).Nodup := hperm.nodup hn
      exact deleteTask_nodup rest ts₂ ts' he ((List.nodup_append.mp this).2.1)

theorem moveApply_perm (dest : Nat) : ∀ (ids : List Nat) (tasks ts' : List Task),
    moveApply dest tasks ids = .ok ts' → forestIds ts' ~ forestIds tasks
  | [], tasks, ts' => by
    rw [moveApply]
    intro he
    cases he
    exact List.Perm.refl _
  | i :: rest, tasks, ts' => by
    intro he
    rw [moveApply] at he
    split at he
    · cases he
    · rename_i ts₂ s hd
      split at he
      · cases he
      · rename_i ts₃ ha
        have h1 := detachTask_perm i tasks ts₂ s hd
        have h2 := attachChild_perm dest s ts₂ ts₃ ha
        have h3 := moveApply_perm dest rest ts₃ ts' he
        exact h3.trans (h2.trans h1.symm)

theorem stepOp_nodup (meta : Meta) (tasks : List Task) (op : EngineOp) (ts' : List Task)
    (h : stepOp meta tasks op = .ok ts') (hn : (forestIds tasks).Nodup) :
    (forestIds ts').Nodup := by
  cases op with
  | insert nt sub =>
    rw [stepOp] at h
    cases ha : addTask meta tasks nt sub with
    | error e => rw [ha] at h; cases h
    | ok r =>
      obtain ⟨ts₂, newId⟩ := r
      rw [ha] at h
      simp only [Except.map] at h
      cases h
      exact addTask_nodup meta tasks nt sub _ newId ha hn
  | edit ids p r =>
    rw [stepOp, editTask] at h
    cases hf : ids.find? (fun i => (retrieveTask i tasks).isNone) with
    | some i => rw [hf] at h; cases h
    | none =>
      rw [hf] at h
      cases h
      rw [forestIds_editInList ids p r tasks]
      exact hn
  | advance ids r =>
    rw [stepOp, incrementTask] at h
    cases hf : ids.find? (fun i => (retrieveTask i tasks).isNone) with
    | some i => rw [hf] at h; cases h
    | none =>
      rw [hf] at h
      rw [incForest_ids meta.states ids r false tasks ts' h]
      exact hn
  | remove ids =>
    rw [stepOp] at h
    exact deleteTask_nodup ids tasks ts' h hn
  | move ids d =>
    rw [stepOp, moveTask] at h
    cases hv : moveValidate tasks ids d with
    | some e => rw [hv] at h; cases h
    | none =>
      rw [hv] at h
      exact (moveApply_perm d ids tasks ts' h).symm.nodup hn

theorem foldl_max_mem (l : List Nat) (a : Nat) : l.foldl Nat.max a = a ∨ l.foldl Nat.max a ∈ l := by
  induction l generalizing a with
  | nil => left; rfl
  | cons x xs ih =>
    rcases ih (Nat.max a x) with h | h
    · have hm : Nat.max a x = a ∨ Nat.max a x = x := by
        rcases Nat.le_total a x with hle | hle
        · right; exact Nat.max_eq_right hle
        · left; exact Nat.max_eq_left hle
      rcases hm with hm | hm
      · left
        rw [List.foldl_cons, h, hm]
      · right
        rw [List.foldl_cons, h, hm]
        exact List.mem_cons_self x xs
    · right
      exact List.mem_cons_of_mem x h

theorem foldl_max_mem_of_ne_nil (l : List Nat) (h : l ≠ []) : l.foldl Nat.max 0 ∈ l := by
  rcases foldl_max_mem l 0 with hz | hm
  · cases l with
    | nil => exact absurd rfl h
    | cons x xs =>
      have hx : x ≤ (x :: xs).foldl Nat.max 0 := mem_le_foldl_max _ 0 x (List.mem_cons_self x xs)
      rw [hz] at hx
      have : x = 0 := Nat.le_zero.mp hx
      rw [hz, ← this]
      exact List.mem_cons_self x xs
  · exact hm

/-! ### Example data used by the concrete witnesses (the default storage
document of `Storage.ts` and the example scenario of the spec) -/

/-- The three default states of `DEFAULT_STORAGE_DATAS` in `Storage.ts`. -/
def exMeta : Meta :=
  ⟨[⟨"todo", "#ff8f00", "c1"⟩, ⟨"wip", "#ab47bc", "c2"⟩, ⟨"done", "#66bb6a", "c3"⟩], [], []⟩

/-- A task with only the mandatory attributes set. -/
def exTask (i : Nat) (nm st : String) (subs : List Task) : Task :=
  .mk ⟨i, nm, st, none, none, none, none⟩ subs

/-- The example forest of the spec scenario: root task 0 owning subtask 1. -/
def exForest : List Task := [exTask 0 "Add more stuff" "todo" [exTask 1 "sub" "todo" []]]

/-! ### C1 — identifier uniqueness is preserved by every operation sequence -/

/-- C1: for every sequence of engine operations (insert, edit, advance,
remove, move) starting from a forest whose task identifiers are all distinct,
every identifier present anywhere in the resulting forest (roots and all
nested descendants) is distinct. -/
theorem engine_ops_preserve_id_uniqueness (meta : Meta) (tasks : List Task) (ops : List EngineOp)
    (h : (forestIds tasks).Nodup) : (forestIds (runOps meta tasks ops)).Nodup := by
  induction ops generalizing tasks with
  | nil => simpa [runOps] using h
  | cons op ops ih =>
    have hstep : runOps meta tasks (op :: ops) = runOps meta (applyOp meta tasks op) ops := rfl
    rw [hstep]
    apply ih
    rw [applyOp]
    cases hs : stepOp meta tasks op with
    | ok ts2 => exact stepOp_nodup meta tasks op ts2 hs h
    | error e => exact h

/-- Witness for C1: running the spec's example scenario (insert a subtask of
task 0, advance both, re-append 1 under 0, remove the whole subtree of 0)
keeps the identifiers distinct. -/
theorem engine_ops_preserve_id_uniqueness_witness :
    (forestIds [exTask 0 "Add more stuff" "todo" []]).Nodup ∧
    (forestIds (runOps exMeta [exTask 0 "Add more stuff" "todo" []]
      [.insert ⟨"sub", "todo", none, none, none, none, []⟩ (some 0),
       .advance [0, 1] false,
       .move [1] 0,
       .remove [0]])).Nodup :=
  ⟨by decide,
   engine_ops_preserve_id_uniqueness exMeta [exTask 0 "Add more stuff" "todo" []]
     [.insert ⟨"sub", "todo", none, none, none, none, []⟩ (some 0),
      .advance [0, 1] false, .move [1] 0, .remove [0]] (by decide)⟩

/-! ### C9 — allocateIdentifier returns a fresh identifier above the maximum -/

/-- C9: for every forest, `allocateIdentifier` returns one greater than the
maximum identifier present anywhere in the forest (at any nesting depth), or
0 when the forest is empty; the returned identifier is not used by any task
in the forest. -/
theorem allocateIdentifier_spec (tasks : List Task) :
    (∀ i ∈ forestIds tasks, i < allocateIdentifier tasks) ∧
    allocateIdentifier tasks ∉ forestIds tasks ∧
    (forestIds tasks = [] → allocateIdentifier tasks = 0) ∧
    (forestIds tasks ≠ [] → ∃ m ∈ forestIds tasks,
      allocateIdentifier tasks = m + 1 ∧ ∀ i ∈ forestIds tasks, i ≤ m) := by
  refine ⟨lt_allocateIdentifier tasks, ?_, ?_, ?_⟩
  · intro hmem
    exact absurd (lt_allocateIdentifier tasks _ hmem) (lt_irrefl _)
  · intro h
    unfold allocateIdentifier
    rw [h]
  · intro h
    have hub : ∀ i ∈ forestIds tasks, i ≤ (forestIds tasks).foldl Nat.max 0 := fun i hi =>
      mem_le_foldl_max (forestIds tasks) 0 i hi
    have halloc : allocateIdentifier tasks = (forestIds tasks).foldl Nat.max 0 + 1 := by
      unfold allocateIdentifier
      cases hids : forestIds tasks with
      | nil => exact absurd hids h
      | cons x xs => rfl
    exact ⟨(forestIds tasks).foldl Nat.max 0, foldl_max_mem_of_ne_nil _ h, halloc, hub⟩

/-- Witness for C9 at the spec's example forest: the next identifier is 2,
above both used identifiers 0 and 1, and unused. -/
theorem allocateIdentifier_spec_witness :
    (forestIds exForest ≠ [] → ∃ m ∈ forestIds exForest,
      allocateIdentifier exForest = m + 1 ∧ ∀ i ∈ forestIds exForest, i ≤ m) ∧
    allocateIdentifier exForest ∉ forestIds exForest ∧
    allocateIdentifier exForest = 2 :=
  ⟨(allocateIdentifier_spec exForest).2.2.2, (allocateIdentifier_spec exForest).2.1, by decide⟩

/-! ### C2 — moving a task into its own subtree is rejected -/

/-- C2: for every forest and every task A in it, calling move with a
destination equal to A's own id or to the id of any current descendant of A
fails with `InvalidMove` and leaves the entire forest unchanged (validation
happens before any detach, so the error result carries no partial state). -/
theorem moveTask_rejects_cycle (tasks : List Task) (a dest : Nat) (s : Task)
    (hfind : retrieveTask a tasks = some s) (hdest : dest ∈ taskIds s) :
    moveTask tasks [a] dest = .error .invalidMove ∧
    (∀ meta : Meta, applyOp meta tasks (.move [a] dest) = tasks) := by
  have hsub := retrieveTask_sub a tasks s hfind
  have hdmem : dest ∈ forestIds tasks := hsub.2 dest hdest
  have hvalid : moveValidate tasks [a] dest = some .invalidMove := by
    rw [moveValidate]
    have hfnone : ([a].find? (fun i => (retrieveTask i tasks).isNone)) = none := by
      simp [List.find?_cons, hfind]
    rw [hfnone]
    have hdsome : (retrieveTask dest tasks).isNone = false := by
      cases hq : retrieveTask dest tasks with
      | some u => rfl
      | none => exact absurd hdmem (by simpa using (retrieveTask_eq_none_iff dest tasks).mp hq)
    rw [if_neg (by simp [hdsome])]
    rw [if_pos]
    simp only [List.any_cons, List.any_nil, Bool.or_false, hfind]
    simpa using hdest
  have hmove : moveTask tasks [a] dest = .error .invalidMove := by
    rw [moveTask, hvalid]
  refine ⟨hmove, ?_⟩
  intro meta
  rw [applyOp, stepOp, hmove]

/-- Witness for C2: in the example forest, moving task 0 under its own
descendant 1 (and under itself) is rejected and the forest is untouched. -/
theorem moveTask_rejects_cycle_witness :
    retrieveTask 0 exForest = some (exTask 0 "Add more stuff" "todo" [exTask 1 "sub" "todo" []]) ∧
    (1 : Nat) ∈ taskIds (exTask 0 "Add more stuff" "todo" [exTask 1 "sub" "todo" []]) ∧
    moveTask exForest [0] 1 = .error .invalidMove ∧
    applyOp exMeta exForest (.move [0] 1) = exForest :=
  ⟨by decide, by decide,
   (moveTask_rejects_cycle exForest 0 1 (exTask 0 "Add more stuff" "todo" [exTask 1 "sub" "todo" []])
     (by decide) (by decide)).1,
   (moveTask_rejects_cycle exForest 0 1 (exTask 0 "Add more stuff" "todo" [exTask 1 "sub" "todo" []])
     (by decide) (by decide)).2 exMeta⟩

/-! ### The attribute records of all nodes of a forest -/

mutual

/-- All attribute records inside one subtree, in depth-first preorder. -/
def taskAttrsList : Task → List TaskAttrs
  | .mk a subs => a :: forestAttrsList subs

/-- All attribute records inside a forest, in depth-first preorder. -/
def forestAttrsList : List Task → List TaskAttrs
  | [] => []
  | t :: ts => taskAttrsList t ++ forestAttrsList ts

end

@[simp] theorem taskAttrsList_mk (a : TaskAttrs) (subs : List Task) :
    taskAttrsList (.mk a subs) = a :: forestAttrsList subs := by
  rw [taskAttrsList]

@[simp] theorem forestAttrsList_nil : forestAttrsList [] = [] := by rw [forestAttrsList]

@[simp] theorem forestAttrsList_cons (t : Task) (ts : List Task) :
    forestAttrsList (t :: ts) = taskAttrsList t ++ forestAttrsList ts := by
  rw [forestAttrsList]

/-! ### Advance leaves a forest unchanged when every matched node has a
fixed-point state -/

mutual

theorem incTask_fixed (states : List TaskState) (ids : List Nat) : ∀ (t : Task),
    (∀ a ∈ taskAttrsList t, a.id ∈ ids → nextStateName states a.state = some a.state) →
    incTask states ids false false t = .ok t
  | .mk a subs => by
    intro hfix
    have hsubs : incForest states ids false false subs = .ok subs :=
      incForest_fixed states ids subs (fun b hb hid =>
        hfix b (by rw [taskAttrsList_mk]; exact List.mem_cons_of_mem _ hb) hid)
    rw [incTask]
    by_cases h : ids.contains a.id
    · rw [if_pos (by simpa using h)]
      have hid : a.id ∈ ids := by simpa using h
      have := hfix a (by rw [taskAttrsList_mk]; exact List.mem_cons_self _ _) hid
      rw [this, hsubs]
    · rw [if_neg (by simpa using h), hsubs]

theorem incForest_fixed (states : List TaskState) (ids : List Nat) : ∀ (ts : List Task),
    (∀ a ∈ forestAttrsList ts, a.id ∈ ids → nextStateName states a.state = some a.state) →
    incForest states ids false false ts = .ok ts
  | [] => by
    intro hfix
    rw [incForest]
  | t :: ts => by
    intro hfix
    have ht : incTask states ids false false t = .ok t :=
      incTask_fixed states ids t (fun b hb hid =>
        hfix b (by rw [forestAttrsList_cons]; exact List.mem_append_left _ hb) hid)
    have hts : incForest states ids false false ts = .ok ts :=
      incForest_fixed states ids ts (fun b hb hid =>
        hfix b (by rw [forestAttrsList_cons]; exact List.mem_append_right _ hb) hid)
    rw [incForest, ht, hts]

end

/-- The last configured state name is a fixed point of the state progression
when the configured state names are distinct. -/
theorem nextStateName_last (states : List TaskState) (hne : states ≠ [])
    (hnames : (states.map TaskState.name).Nodup) :
    nextStateName states (states.getLast hne).name = some (states.getLast hne).name := by
  have key : ∀ (l : List TaskState) (h : l ≠ []), (l.map TaskState.name).Nodup →
      l.findIdx? (fun st => st.name == (l.getLast h).name) = some (l.length - 1) := by
    intro l
    induction l with
    | nil => intro h; exact absurd rfl h
    | cons x xs ih =>
      intro h hnd
      cases xs with
      | nil => simp [List.findIdx?_cons]
      | cons y ys =>
        have hxsne : y :: ys ≠ [] := List.cons_ne_nil y ys
        have hlast : (x :: y :: ys).getLast h = (y :: ys).getLast hxsne := by
          rw [List.getLast_cons hxsne]
        have hnd2 : ((y :: ys).map TaskState.name).Nodup := by
          rw [List.map_cons, List.nodup_cons] at hnd
          exact hnd.2
        have hxnot : x.name ∉ (y :: ys).map TaskState.name := by
          rw [List.map_cons, List.nodup_cons] at hnd
          exact hnd.1
        have hxne : (x.name == ((y :: ys).getLast hxsne).name) = false := by
          rw [beq_eq_false_iff_ne]
          intro he
          exact hxnot (he ▸ List.mem_map_of_mem TaskState.name (List.getLast_mem hxsne))
        rw [hlast, List.findIdx?_cons, hxne]
        have := ih hxsne hnd2
        simp only [Bool.false_eq_true, if_false, List.findIdx?_succ, this, Option.map_some']
        simp only [List.length_cons]
        congr 1
  have hidx := key states hne hnames
  have hget : states.get? (states.length - 1 + 1) = none := by
    apply List.get?_eq_none.mpr
    have hpos : 0 < states.length := List.length_pos.mpr hne
    omega
  rw [nextStateName, hidx]
  show (match states.get? (states.length - 1 + 1) with
        | none => some (states.getLast hne).name
        | some st => some st.name) = some (states.getLast hne).name
  rw [hget]

/-! ### C4 — advance is idempotent at the terminal state -/

/-- C4: for every forest and every matched task whose state is the last entry
of the ordered Metadata state list (state names distinct), advance leaves the
task's state unchanged and reports success; applying advance twice to such a
forest equals applying it once. -/
theorem incrementTask_terminal_idempotent (meta : Meta) (tasks : List Task) (ids : List Nat)
    (hne : meta.states ≠ [])
    (hnames : (meta.states.map TaskState.name).Nodup)
    (hfound : ∀ i ∈ ids, retrieveTask i tasks ≠ none)
    (hterm : ∀ a ∈ forestAttrsList tasks, a.id ∈ ids →
      a.state = (meta.states.getLast hne).name) :
    incrementTask meta tasks ids false = .ok tasks ∧
    applyOp meta (applyOp meta tasks (.advance ids false)) (.advance ids false) =
      applyOp meta tasks (.advance ids false) := by
  have hfix : ∀ a ∈ forestAttrsList tasks, a.id ∈ ids →
      nextStateName meta.states a.state = some a.state := by
    intro a ha hid
    rw [hterm a ha hid]
    exact nextStateName_last meta.states hne hnames
  have hmain : incrementTask meta tasks ids false = .ok tasks := by
    rw [incrementTask]
    have hf : ids.find? (fun i => (retrieveTask i tasks).isNone) = none := by
      rw [List.find?_eq_none]
      intro i hi
      cases hq : retrieveTask i tasks with
      | some s => simp
      | none => exact absurd hq (hfound i hi)
    rw [hf]
    exact incForest_fixed meta.states ids tasks hfix
  have hstep : applyOp meta tasks (.advance ids false) = tasks := by
    rw [applyOp, stepOp, hmain]
  exact ⟨hmain, by simp only [hstep]⟩

/-- Witness for C4: task 0 is at the terminal state "done"; advancing it
succeeds, changes nothing, and advancing twice equals advancing once. -/
theorem incrementTask_terminal_idempotent_witness :
    incrementTask exMeta [exTask 0 "a" "done" []] [0] false = .ok [exTask 0 "a" "done" []] ∧
    applyOp exMeta (applyOp exMeta [exTask 0 "a" "done" []] (.advance [0] false))
        (.advance [0] false) =
      applyOp exMeta [exTask 0 "a" "done" []] (.advance [0] false) :=
  incrementTask_terminal_idempotent exMeta [exTask 0 "a" "done" []] [0]
    (by decide) (by decide) (by decide) (by decide)

/-! ### C5 — removal detaches the whole subtree in one operation -/

/-- C5: for every forest with distinct identifiers and every task with exactly
N transitive descendants, removing that task's id removes exactly N+1 tasks
(the task and its whole subtree) in one operation, and afterwards lookup
fails for the removed task's id and for every former descendant's id. -/
theorem deleteTask_cascades (tasks : List Task) (a : Nat) (s : Task)
    (hnodup : (forestIds tasks).Nodup) (hfind : retrieveTask a tasks = some s) :
    ∃ ts', deleteTask tasks [a] = .ok ts' ∧
      (forestIds tasks).length = (forestIds ts').length + ((forestIds s.subtasks).length + 1) ∧
      ∀ j ∈ taskIds s, retrieveTask j ts' = none := by
  have hdet : detachTask a tasks ≠ none := by
    intro hn
    rw [detachTask_none_iff, hfind] at hn
    cases hn
  cases hd : detachTask a tasks with
  | none => exact absurd hd hdet
  | some r =>
    obtain ⟨ts', s₂⟩ := r
    have hs2 : retrieveTask a tasks = some s₂ := detachTask_retrieve a tasks ts' s₂ hd
    rw [hfind] at hs2
    have hss : s₂ = s := (Option.some.inj hs2).symm
    subst hss
    have hperm := detachTask_perm a tasks ts' s₂ hd
    refine ⟨ts', ?_, ?_, ?_⟩
    · rw [deleteTask, hd]
      show deleteTask ts' [] = .ok ts'
      rw [deleteTask]
    · have hlen := hperm.length_eq
      rw [List.length_append] at hlen
      cases s₂ with
      | mk aa ss =>
        rw [taskIds_mk, List.length_cons] at hlen
        rw [Task.subtasks_mk]
        omega
    · have hnd2 := hperm.nodup hnodup
      rw [List.nodup_append] at hnd2
      intro j hj
      exact (retrieveTask_eq_none_iff j ts').mpr (fun hjin => hnd2.2.2 hj hjin)

/-- Witness for C5: removing task 0 (one descendant, so N = 1) from the
example forest removes two tasks and leaves both ids unfindable. -/
theorem deleteTask_cascades_witness :
    (forestIds exForest).Nodup ∧
    retrieveTask 0 exForest = some (exTask 0 "Add more stuff" "todo" [exTask 1 "sub" "todo" []]) ∧
    ∃ ts', deleteTask exForest [0] = .ok ts' ∧
      (forestIds exForest).length = (forestIds ts').length +
        ((forestIds (exTask 0 "Add more stuff" "todo" [exTask 1 "sub" "todo" []]).subtasks).length + 1) ∧
      ∀ j ∈ taskIds (exTask 0 "Add more stuff" "todo" [exTask 1 "sub" "todo" []]),
        retrieveTask j ts' = none :=
  ⟨by decide, by decide,
   deleteTask_cascades exForest 0 (exTask 0 "Add more stuff" "todo" [exTask 1 "sub" "todo" []])
     (by decide) (by decide)⟩

/-! ### C6 — edit merges partial attributes into the matched task -/

mutual

theorem editIn_id_of_not_mem (ids : List Nat) (p : PartialTask) (r : Bool) : ∀ (t : Task),
    (∀ j ∈ taskIds t, j ∉ ids) → editIn ids p r t = t
  | .mk a subs => by
    intro hno
    have hsubs : editInList ids p r subs = subs :=
      editInList_id_of_not_mem ids p r subs (fun j hj =>
        hno j (by rw [taskIds_mk]; exact List.mem_cons_of_mem _ hj))
    rw [editIn]
    have hid : a.id ∉ ids := hno a.id (by rw [taskIds_mk]; exact List.mem_cons_self _ _)
    rw [if_neg (by simpa using hid), hsubs]

theorem editInList_id_of_not_mem (ids : List Nat) (p : PartialTask) (r : Bool) : ∀ (ts : List Task),
    (∀ j ∈ forestIds ts, j ∉ ids) → editInList ids p r ts = ts
  | [] => by
    intro hno
    rw [editInList]
  | t :: ts => by
    intro hno
    have ht : editIn ids p r t = t :=
      editIn_id_of_not_mem ids p r t (fun j hj =>
        hno j (by rw [forestIds_cons]; exact List.mem_append_left _ hj))
    have hts : editInList ids p r ts = ts :=
      editInList_id_of_not_mem ids p r ts (fun j hj =>
        hno j (by rw [forestIds_cons]; exact List.mem_append_right _ hj))
    rw [editInList, ht, hts]

end

mutual

theorem retrieveInTask_editIn (a : Nat) (p : PartialTask) : ∀ (t : Task), (taskIds t).Nodup →
    retrieveInTask a (editIn [a] p false t) =
      (retrieveInTask a t).map (fun u => Task.mk (mergeAttrs p u.attrs) u.subtasks)
  | .mk b subs => by
    intro hnd
    rw [taskIds_mk, List.nodup_cons] at hnd
    rw [editIn]
    by_cases h : b.id = a
    · rw [if_pos (by simpa using h)]
      have hsubs : editInList [a] p false subs = subs :=
        editInList_id_of_not_mem [a] p false subs (fun j hj hja => by
          rw [List.mem_singleton] at hja
          subst hja
          rw [h] at hnd
          exact hnd.1 hj)
      rw [if_neg (by simp), hsubs, retrieveInTask_def, retrieveInTask_def]
      have hmid : (mergeAttrs p b).id = b.id := rfl
      rw [hmid, if_pos h, if_pos h]
      rfl
    · rw [if_neg (by simpa using h), retrieveInTask_def, retrieveInTask_def, if_neg h, if_neg h]
      exact retrieveTask_editInList a p subs hnd.2

theorem retrieveTask_editInList (a : Nat) (p : PartialTask) : ∀ (ts : List Task),
    (forestIds ts).Nodup →
    retrieveTask a (editInList [a] p false ts) =
      (retrieveTask a ts).map (fun u => Task.mk (mergeAttrs p u.attrs) u.subtasks)
  | [] => by
    intro hnd
    rw [editInList]
    simp
  | t :: ts => by
    intro hnd
    rw [forestIds_cons, List.nodup_append] at hnd
    have h1 := retrieveInTask_editIn a p t hnd.1
    have h2 := retrieveTask_editInList a p ts hnd.2.1
    rw [editInList, retrieveTask_cons, retrieveTask_cons]
    cases hr : retrieveInTask a t with
    | some u =>
      rw [hr] at h1
      rw [h1]
      rfl
    | none =>
      rw [hr] at h1
      rw [h1]
      exact h2

end

/-- C6: for every task and every partial attribute record, edit overwrites
only the attributes present in the record: the identifier, the subtask
sequence, and every attribute absent from the record keep exactly their
previous value, while present attributes are overwritten — a merge, not a
replace. -/
theorem editTask_merges (tasks : List Task) (a : Nat) (p : PartialTask) (t : Task)
    (hnodup : (forestIds tasks).Nodup) (hfind : retrieveTask a tasks = some t) :
    ∃ ts', editTask tasks [a] p false = .ok ts' ∧
      retrieveTask a ts' = some (.mk (mergeAttrs p t.attrs) t.subtasks) ∧
      (mergeAttrs p t.attrs).id = t.attrs.id ∧
      (p.name = none → (mergeAttrs p t.attrs).name = t.attrs.name) ∧
      (p.state = none → (mergeAttrs p t.attrs).state = t.attrs.state) ∧
      (p.description = none → (mergeAttrs p t.attrs).description = t.attrs.description) ∧
      (p.priority = none → (mergeAttrs p t.attrs).priority = t.attrs.priority) ∧
      (p.group = none → (mergeAttrs p t.attrs).group = t.attrs.group) ∧
      (p.dueDate = none → (mergeAttrs p t.attrs).dueDate = t.attrs.dueDate) ∧
      (∀ v, p.name = some v → (mergeAttrs p t.attrs).name = v) ∧
      (∀ v, p.state = some v → (mergeAttrs p t.attrs).state = v) ∧
      (∀ v, p.description = some v → (mergeAttrs p t.attrs).description = some v) ∧
      (∀ v, p.priority = some v → (mergeAttrs p t.attrs).priority = some v) ∧
      (∀ v, p.group = some v → (mergeAttrs p t.attrs).group = some v) ∧
      (∀ v, p.dueDate = some v → (mergeAttrs p t.attrs).dueDate = some v) := by
  refine ⟨editInList [a] p false tasks, ?_, ?_, rfl, ?_, ?_, ?_, ?_, ?_, ?_, ?_, ?_, ?_, ?_, ?_, ?_⟩
  · rw [editTask]
    have hf : [a].find? (fun i => (retrieveTask i tasks).isNone) = none := by
      simp [List.find?_cons, hfind]
    rw [hf]
  · rw [retrieveTask_editInList a p tasks hnodup, hfind]
    rfl
  · intro h; simp [mergeAttrs, h]
  · intro h; simp [mergeAttrs, h]
  · intro h; simp [mergeAttrs, h]
  · intro h; simp [mergeAttrs, h]
  · intro h; simp [mergeAttrs, h]
  · intro h; simp [mergeAttrs, h]
  · intro v h; simp [mergeAttrs, h]
  · intro v h; simp [mergeAttrs, h]
  · intro v h; simp [mergeAttrs, h]
  · intro v h; simp [mergeAttrs, h]
  · intro v h; simp [mergeAttrs, h]
  · intro v h; simp [mergeAttrs, h]

/-- Witness for C6: renaming task 1 with a record that carries only a name
and a description leaves its state, its other optional attributes and its
position untouched. -/
theorem editTask_merges_witness :
    (forestIds exForest).Nodup ∧
    retrieveTask 1 exForest = some (exTask 1 "sub" "todo" []) ∧
    ∃ ts', editTask exForest [1] ⟨some "renamed", none, some "details", none, none, none⟩ false =
        .ok ts' ∧
      retrieveTask 1 ts' = some (.mk
        (mergeAttrs ⟨some "renamed", none, some "details", none, none, none⟩
          (exTask 1 "sub" "todo" []).attrs)
        (exTask 1 "sub" "todo" []).subtasks) ∧
      (mergeAttrs ⟨some "renamed", none, some "details", none, none, none⟩
        (exTask 1 "sub" "todo" []).attrs).id = (exTask 1 "sub" "todo" []).attrs.id ∧ True := by
  have h := editTask_merges exForest 1
    ⟨some "renamed", none, some "details", none, none, none⟩
    (exTask 1 "sub" "todo" []) (by decide) (by decide)
  obtain ⟨ts', h1, h2, h3, _⟩ := h
  exact ⟨by decide, by decide, ts', h1, h2, h3, trivial⟩

/-! ### C3 — template subtasks are applied as deep copies at creation time -/

theorem buildTask_id (nt : NewTask) (ds : String) (base : Nat) :
    (buildTask nt ds base).id = base := rfl

theorem retrieveInTask_self (i : Nat) (t : Task) (h : t.id = i) : retrieveInTask i t = some t := by
  cases t with
  | mk a subs => rw [retrieveInTask_def, if_pos (by simpa using h)]

mutual

theorem attachChild_retrieve_fresh (p : Nat) (c : Task) : ∀ (ts ts' : List Task),
    attachChild p c ts = some ts' → c.id ∉ forestIds ts → retrieveTask c.id ts' = some c
  | [], ts' => by simp
  | t :: ts, ts' => by
    rw [attachChild_cons]
    cases ha : attachInTask p c t with
    | some t' =>
      intro he hno
      cases he
      rw [retrieveTask_cons]
      have := attachInTask_retrieve_fresh p c t t' ha (fun hm =>
        hno (by rw [forestIds_cons]; exact List.mem_append_left _ hm))
      rw [this]
    | none =>
      cases hb : attachChild p c ts with
      | some rest' =>
        intro he hno
        simp only [hb, Option.map_some'] at he
        cases he
        rw [retrieveTask_cons]
        have hrec := attachChild_retrieve_fresh p c ts rest' hb (fun hm =>
          hno (by rw [forestIds_cons]; exact List.mem_append_right _ hm))
        have hnot : retrieveInTask c.id t = none :=
          (retrieveInTask_eq_none_iff c.id t).mpr (fun hm =>
            hno (by rw [forestIds_cons]; exact List.mem_append_left _ hm))
        rw [hnot, hrec]
      | none => simp [hb]

theorem attachInTask_retrieve_fresh (p : Nat) (c : Task) : ∀ (t t' : Task),
    attachInTask p c t = some t' → c.id ∉ taskIds t → retrieveInTask c.id t' = some c
  | .mk a subs, t' => by
    rw [attachInTask_def]
    by_cases h : a.id = p
    · rw [if_pos h]
      intro he hno
      cases he
      have hne : a.id ≠ c.id := fun heq =>
        hno (by rw [taskIds_mk, ← heq]; exact List.mem_cons_self _ _)
      rw [retrieveInTask_def, if_neg hne, retrieveTask_append]
      have hsubs : retrieveTask c.id subs = none :=
        (retrieveTask_eq_none_iff c.id subs).mpr (fun hm =>
          hno (by rw [taskIds_mk]; exact List.mem_cons_of_mem _ hm))
      rw [hsubs]
      show retrieveTask c.id [c] = some c
      rw [retrieveTask_cons, retrieveInTask_self c.id c rfl]
    · rw [if_neg h]
      cases hb : attachChild p c subs with
      | some subs' =>
        intro he hno
        simp only [hb, Option.map_some'] at he
        cases he
        have hne : a.id ≠ c.id := fun heq =>
          hno (by rw [taskIds_mk, ← heq]; exact List.mem_cons_self _ _)
        rw [retrieveInTask_def, if_neg hne]
        exact attachChild_retrieve_fresh p c subs subs' hb (fun hm =>
          hno (by rw [taskIds_mk]; exact List.mem_cons_of_mem _ hm))
      | none => simp [hb]

end

/-- The application state owned by `Storage`: the metadata registries and the
task forest. -/
structure AppState where
  meta : Meta
  tasks : List Task
deriving DecidableEq

/-- Template lookup of the ADD_TASK branch of `ActionHandler.handleAction`
(`storage.meta.templates?.find((t) => t.name === template)`); an unknown or
absent template contributes no subtask skeletons. -/
def resolveTemplate (meta : Meta) (template : Option String) : List Skel :=
  match template with
  | none => []
  | some tn =>
    match meta.templates.find? (fun t => t.name == tn) with
    | none => []
    | some td => td.subtasks

/-- The ADD_TASK flow of `ActionHandler.handleAction`: build the attribute
record (state defaulted to the first configured state), merge the named
template's subtask skeletons, and let the engine insert the new task.
Modelled from the spec where the sources stop: the `Task` constructor that
instantiates the skeletons is in `Task.ts` (absent), and spec section 3
requires template skeletons to be applied as copies, not references. -/
def handleAddTask (st : AppState) (nm : String) (state : Option String)
    (description : Option String) (priority : Option Nat) (group : Option String)
    (dueDate : Option String) (template : Option String) (subTaskOf : Option Nat) :
    Except EngineError (AppState × Nat) :=
  match addTask st.meta st.tasks
      ⟨nm, state.getD (defaultStateName st.meta), description, priority, group, dueDate,
       resolveTemplate st.meta template⟩ subTaskOf with
  | .error e => .error e
  | .ok (ts, id) => .ok ({ st with tasks := ts }, id)

/-- One engine mutation dispatched through the storage state: only the forest
changes, the metadata registries are untouched. -/
def stepStorage (st : AppState) (op : EngineOp) : AppState :=
  { st with tasks := applyOp st.meta st.tasks op }

/-- Replace the subtask skeletons of the first template entry with the given
name (`existing.subtasks = templateSubtasks` in the TEMPLATE 'add' branch). -/
def updateFirstTemplate : List TaskTemplate → String → List Skel → List TaskTemplate
  | [], _, _ => []
  | t :: ts, n, subs =>
    if t.name = n then ⟨t.name, subs⟩ :: ts else t :: updateFirstTemplate ts n subs

/-- Translated from the TEMPLATE 'add' branch of `ActionHandler.handleAction`:
an existing entry has its subtasks replaced in place, otherwise one new entry
is appended. Only the metadata changes; the forest is not part of it. -/
def templateAdd (meta : Meta) (templateName : String) (subs : List Skel) : Meta :=
  if meta.templates.any (fun t => t.name == templateName) then
    { meta with templates := updateFirstTemplate meta.templates templateName subs }
  else
    { meta with templates := meta.templates ++ [⟨templateName, subs⟩] }

/-- C3: creating a task that names an existing template applies the template's
subtask skeletons as deep copies, not references: the forest receives a fresh
instantiation (`buildTask`) of the skeletons, creation leaves the template
registry unchanged, later engine mutations of the forest (in particular of the
new task's subtasks) never touch the template entry, and replacing the
template's skeletons afterwards never touches the forest. -/
theorem addTask_template_deep_copy (st : AppState) (nm : String) (state : Option String)
    (description : Option String) (priority : Option Nat) (group : Option String)
    (dueDate : Option String) (tn : String) (sub : Option Nat) (td : TaskTemplate)
    (st' : AppState) (newId : Nat)
    (htd : st.meta.templates.find? (fun t => t.name == tn) = some td)
    (h : handleAddTask st nm state description priority group dueDate (some tn) sub =
      .ok (st', newId)) :
    st'.meta = st.meta ∧
    retrieveTask newId st'.tasks = some (buildTask
      ⟨nm, state.getD (defaultStateName st.meta), description, priority, group, dueDate,
       td.subtasks⟩ (defaultStateName st.meta) newId) ∧
    (∀ op : EngineOp, (stepStorage st' op).meta = st.meta) ∧
    (∀ tn2 subs2,
      (AppState.mk (templateAdd st'.meta tn2 subs2) st'.tasks).tasks = st'.tasks) := by
  rw [handleAddTask] at h
  have hres : resolveTemplate st.meta (some tn) = td.subtasks := by
    rw [resolveTemplate, htd]
  rw [hres] at h
  have hfresh : allocateIdentifier st.tasks ∉ forestIds st.tasks := fun hmem =>
    absurd (lt_allocateIdentifier st.tasks _ hmem) (lt_irrefl _)
  cases haddTask : addTask st.meta st.tasks
      ⟨nm, state.getD (defaultStateName st.meta), description, priority, group, dueDate,
       td.subtasks⟩ sub with
  | error e => rw [haddTask] at h; cases h
  | ok r =>
    obtain ⟨ts, nid⟩ := r
    rw [haddTask] at h
    cases h
    refine ⟨rfl, ?_, fun op => rfl, fun tn2 subs2 => rfl⟩
    show retrieveTask newId ts = _
    cases sub with
    | none =>
      rw [addTask] at haddTask
      cases haddTask
      rw [retrieveTask_append, (retrieveTask_eq_none_iff _ st.tasks).mpr hfresh,
        retrieveTask_cons, retrieveInTask_self _ _ (buildTask_id _ _ _)]
    | some pid =>
      rw [addTask] at haddTask
      split at haddTask
      · rename_i ts2 ha
        cases haddTask
        have := attachChild_retrieve_fresh pid _ st.tasks _ ha
          (by rw [buildTask_id]; exact hfresh)
        rw [buildTask_id] at this
        exact this
      · cases haddTask

/-- Witness for C3: creating "Sprint Work" from the template "sprint" (one
"design" skeleton) yields task 2 with a freshly numbered copy (subtask id 3),
the template registry is unchanged by construction, and replacing the
template's skeletons afterwards leaves the forest alone. -/
theorem addTask_template_deep_copy_witness :
    (⟨exMeta.states, [], [⟨"sprint", [Skel.mk ⟨"design", none, none, none, none, none⟩ []]⟩]⟩ :
      Meta).templates.find? (fun t => t.name == "sprint") =
      some ⟨"sprint", [Skel.mk ⟨"design", none, none, none, none, none⟩ []]⟩ ∧
    ∃ st' newId,
      handleAddTask
        ⟨⟨exMeta.states, [], [⟨"sprint", [Skel.mk ⟨"design", none, none, none, none, none⟩ []]⟩]⟩,
         exForest⟩
        "Sprint Work" none none none none none (some "sprint") none = .ok (st', newId) ∧
      st'.meta = (⟨exMeta.states, [],
        [⟨"sprint", [Skel.mk ⟨"design", none, none, none, none, none⟩ []]⟩]⟩ : Meta) ∧
      retrieveTask newId st'.tasks = some (buildTask
        ⟨"Sprint Work", "todo", none, none, none, none,
         [Skel.mk ⟨"design", none, none, none, none, none⟩ []]⟩ "todo" newId) ∧
      (∀ op : EngineOp, (stepStorage st' op).meta = st'.meta) ∧
      (∀ tn2 subs2,
        (AppState.mk (templateAdd st'.meta tn2 subs2) st'.tasks).tasks = st'.tasks) := by
  have hmain := addTask_template_deep_copy
    ⟨⟨exMeta.states, [], [⟨"sprint", [Skel.mk ⟨"design", none, none, none, none, none⟩ []]⟩]⟩,
     exForest⟩
    "Sprint Work" none none none none none "sprint" none
    ⟨"sprint", [Skel.mk ⟨"design", none, none, none, none, none⟩ []]⟩
    ⟨⟨exMeta.states, [], [⟨"sprint", [Skel.mk ⟨"design", none, none, none, none, none⟩ []]⟩]⟩,
     exForest ++ [buildTask
       ⟨"Sprint Work", "todo", none, none, none, none,
        [Skel.mk ⟨"design", none, none, none, none, none⟩ []]⟩ "todo" 2]⟩
    2 (by decide) (by decide)
  refine ⟨by decide, _, 2, by decide, hmain.1, ?_, ?_, hmain.2.2.2⟩
  · have := hmain.2.1
    exact this
  · intro op
    rw [hmain.2.2.1 op, hmain.1]

/-! ### C7 — the save/sync orchestration of `Storage` (translated from
`Storage.ts`) -/

/-- The git environment a save runs in: whether `this.git` exists and is
initialized, and whether `commitAndPush` would throw. -/
structure GitEnv where
  gitInitialized : Bool
  commitPushFails : Bool
deriving DecidableEq

/-- One observable effect of `Storage.save`. -/
inductive SaveEvent where
  | fileWritten (doc : StorageFile)
  | syncAttempted
  | syncWarningReported (msg : String)
deriving DecidableEq

/-- Translated from `Storage.save` (`Storage.ts` lines 150-162): the whole
document `{ meta, datas: this.tasks }` is written first; then, only when git
is initialized, `commitAndPush` runs inside a try/catch whose catch merely
reports a console warning — `save` itself never throws. -/
def saveEvents (meta : Meta) (tasks : List Task) (env : GitEnv) : List SaveEvent :=
  [.fileWritten ⟨meta, tasks⟩] ++
    (if env.gitInitialized then
      [.syncAttempted] ++
        (if env.commitPushFails then [.syncWarningReported "Git auto-commit warning"] else [])
    else [])

/-- Translated from the mutating methods of `Storage` (`addTask`, `editTask`,
`incrementTask`, `deleteTask`, `moveTask`, lines 104-132): run the engine
mutation, then `this.save()`, then return the engine result; an engine
failure propagates before any save happens. -/
def storageRun (meta : Meta) (tasks : List Task) (op : EngineOp) (env : GitEnv) :
    Except EngineError (List Task) × List SaveEvent :=
  match stepOp meta tasks op with
  | .error e => (.error e, [])
  | .ok ts => (.ok ts, saveEvents meta ts env)

/-- C7: for every mutating `Storage` operation, the in-memory engine mutation
and the full-document save complete before the git synchronization is
attempted (the written document heads the event trace and carries the mutated
forest), and a synchronization failure is caught and reported only: the
returned result is the engine result whatever the git environment, and a
failing `commitAndPush` merely appends a reported warning after the write. -/
theorem storage_sync_decoupled (meta : Meta) (tasks : List Task) (op : EngineOp) (env : GitEnv)
    (ts : List Task) (h : stepOp meta tasks op = .ok ts) :
    (storageRun meta tasks op env).1 = .ok ts ∧
    (∀ env2 : GitEnv, (storageRun meta tasks op env2).1 = (storageRun meta tasks op env).1) ∧
    ∃ rest, (storageRun meta tasks op env).2 = .fileWritten ⟨meta, ts⟩ :: rest ∧
      (∀ e ∈ rest, e = .syncAttempted ∨ ∃ m, e = .syncWarningReported m) ∧
      (env.gitInitialized = true → env.commitPushFails = true →
        rest = [.syncAttempted, .syncWarningReported "Git auto-commit warning"]) := by
  have hrun : ∀ env2 : GitEnv, storageRun meta tasks op env2 = (.ok ts, saveEvents meta ts env2) := by
    intro env2
    rw [storageRun, h]
  refine ⟨by rw [hrun env], fun env2 => by rw [hrun env2, hrun env], ?_⟩
  refine ⟨(if env.gitInitialized then
    [.syncAttempted] ++
      (if env.commitPushFails then [SaveEvent.syncWarningReported "Git auto-commit warning"]
       else [])
    else []), ?_, ?_, ?_⟩
  · rw [hrun env]
    rw [saveEvents]
    rfl
  · intro e he
    by_cases hg : env.gitInitialized
    · rw [if_pos hg] at he
      rcases List.mem_append.mp he with h1 | h2
      · left
        simpa using h1
      · by_cases hf : env.commitPushFails
        · rw [if_pos hf] at h2
          right
          exact ⟨"Git auto-commit warning", by simpa using h2⟩
        · rw [if_neg hf] at h2
          cases h2
    · rw [if_neg hg] at he
      cases he
  · intro hg hf
    rw [if_pos hg, if_pos hf]
    rfl

/-- Witness for C7: inserting a new root task with git initialized and a
failing push still returns the mutated forest, writes it first, and only
reports the sync warning after the write. -/
theorem storage_sync_decoupled_witness :
    stepOp exMeta exForest (.insert ⟨"x", "todo", none, none, none, none, []⟩ none) =
      .ok (exForest ++ [exTask 2 "x" "todo" []]) ∧
    (storageRun exMeta exForest (.insert ⟨"x", "todo", none, none, none, none, []⟩ none)
      ⟨true, true⟩).1 = .ok (exForest ++ [exTask 2 "x" "todo" []]) ∧
    ∃ rest, (storageRun exMeta exForest (.insert ⟨"x", "todo", none, none, none, none, []⟩ none)
        ⟨true, true⟩).2 =
        .fileWritten ⟨exMeta, exForest ++ [exTask 2 "x" "todo" []]⟩ :: rest ∧
      rest = [.syncAttempted, .syncWarningReported "Git auto-commit warning"] := by
  have h := storage_sync_decoupled exMeta exForest
    (.insert ⟨"x", "todo", none, none, none, none, []⟩ none) ⟨true, true⟩
    (exForest ++ [exTask 2 "x" "todo" []]) (by decide)
  obtain ⟨h1, _, rest, h2, _, h3⟩ := h
  exact ⟨by decide, h1, rest, h2, h3 rfl rfl⟩

/-! ### C10 — the group 'add' branch keeps group names distinct -/

/-- In-place color update of the first entry with the given name
(`existing.hexColor = color` after `groups.find(...)`). -/
def updateFirstGroup : List TaskGroup → String → String → List TaskGroup
  | [], _, _ => []
  | g :: gs, n, c => if g.name = n then ⟨g.name, c⟩ :: gs else g :: updateFirstGroup gs n c

/-- Translated from the GROUP 'add' branch of `ActionHandler.handleAction`
(part_000 lines 241-254): when `groups.find` locates an entry with the
requested name its `hexColor` is updated in place, otherwise exactly one new
entry `{ name, hexColor }` is pushed. -/
def groupAdd (groups : List TaskGroup) (groupName color : String) : List TaskGroup :=
  if groups.any (fun g => g.name == groupName) then
    updateFirstGroup groups groupName color
  else groups ++ [⟨groupName, color⟩]

theorem updateFirstGroup_names : ∀ (gs : List TaskGroup) (n c : String),
    (updateFirstGroup gs n c).map TaskGroup.name = gs.map TaskGroup.name
  | [], _, _ => by rw [updateFirstGroup]
  | g :: gs, n, c => by
    rw [updateFirstGroup]
    by_cases h : g.name = n
    · rw [if_pos h]
      rfl
    · rw [if_neg h, List.map_cons, List.map_cons, updateFirstGroup_names gs n c]

theorem updateFirstGroup_find : ∀ (gs : List TaskGroup) (n c : String),
    (∃ g ∈ gs, g.name = n) →
    (updateFirstGroup gs n c).find? (fun g => g.name == n) = some ⟨n, c⟩
  | [], n, c => by
    intro hex
    obtain ⟨g, hg, _⟩ := hex
    cases hg
  | g :: gs, n, c => by
    intro hex
    rw [updateFirstGroup]
    by_cases h : g.name = n
    · rw [if_pos h, List.find?_cons]
      have : (TaskGroup.name ⟨g.name, c⟩ == n) = true := by
        simpa using h
      rw [this, h]
    · rw [if_neg h, List.find?_cons]
      have hfalse : (g.name == n) = false := by
        simpa using h
      rw [hfalse]
      apply updateFirstGroup_find gs n c
      obtain ⟨g2, hg2, hn2⟩ := hex
      rcases List.mem_cons.mp hg2 with rfl | hm
      · exact absurd hn2 h
      · exact ⟨g2, hm, hn2⟩

/-- C10: the group 'add' command updates the color of the existing entry in
place when the name is already registered (names and count unchanged, first
matching entry now carries the new color) and appends exactly one new entry
otherwise — so pairwise-distinct group names stay pairwise distinct. -/
theorem groupAdd_spec (groups : List TaskGroup) (gname color : String) :
    ((∃ g ∈ groups, g.name = gname) →
      groupAdd groups gname color = updateFirstGroup groups gname color ∧
      (groupAdd groups gname color).map TaskGroup.name = groups.map TaskGroup.name ∧
      (groupAdd groups gname color).length = groups.length ∧
      (groupAdd groups gname color).find? (fun g => g.name == gname) = some ⟨gname, color⟩) ∧
    ((∀ g ∈ groups, g.name ≠ gname) →
      groupAdd groups gname color = groups ++ [⟨gname, color⟩]) ∧
    ((groups.map TaskGroup.name).Nodup →
      ((groupAdd groups gname color).map TaskGroup.name).Nodup) := by
  have hlen : ∀ (gs : List TaskGroup) (n c : String),
      (updateFirstGroup gs n c).length = gs.length := by
    intro gs n c
    have := updateFirstGroup_names gs n c
    have h1 := congrArg List.length this
    simpa using h1
  refine ⟨?_, ?_, ?_⟩
  · intro hex
    have hany : groups.any (fun g => g.name == gname) = true := by
      rw [List.any_eq_true]
      obtain ⟨g, hg, hn⟩ := hex
      exact ⟨g, hg, by simpa using hn⟩
    have heq : groupAdd groups gname color = updateFirstGroup groups gname color := by
      rw [groupAdd, if_pos hany]
    exact ⟨heq, by rw [heq, updateFirstGroup_names],
      by rw [heq, hlen], by rw [heq, updateFirstGroup_find groups gname color hex]⟩
  · intro hno
    have hany : groups.any (fun g => g.name == gname) = false := by
      rw [List.any_eq_false]
      intro g hg
      simpa using hno g hg
    rw [groupAdd, hany]
    rfl
  · intro hnd
    by_cases hany : groups.any (fun g => g.name == gname) = true
    · rw [groupAdd, if_pos hany, updateFirstGroup_names]
      exact hnd
    · have hany2 : groups.any (fun g => g.name == gname) = false := by
        simpa using hany
      rw [groupAdd, hany2]
      simp only [Bool.false_eq_true, if_false, List.map_append, List.map_cons, List.map_nil]
      rw [List.nodup_append]
      refine ⟨hnd, List.nodup_singleton _, ?_⟩
      intro x hx hx2
      rw [List.any_eq_false] at hany2
      rw [List.mem_map] at hx
      obtain ⟨g, hg, hgn⟩ := hx
      have := hany2 g hg
      rw [List.mem_singleton] at hx2
      subst hx2
      rw [hgn] at this
      simp at this

/-- Witness for C10: adding "personal" to a registry holding "school" and
"work" appends one entry; re-adding "school" with a new color updates it in
place and keeps names distinct. -/
theorem groupAdd_spec_witness :
    ((∀ g ∈ [(⟨"school", "#4287f5"⟩ : TaskGroup), ⟨"work", "#ff5252"⟩], g.name ≠ "personal") →
      groupAdd [⟨"school", "#4287f5"⟩, ⟨"work", "#ff5252"⟩] "personal" "#ff8f00" =
        [⟨"school", "#4287f5"⟩, ⟨"work", "#ff5252"⟩] ++ [⟨"personal", "#ff8f00"⟩]) ∧
    ((∃ g ∈ [(⟨"school", "#4287f5"⟩ : TaskGroup), ⟨"work", "#ff5252"⟩], g.name = "school") →
      groupAdd [⟨"school", "#4287f5"⟩, ⟨"work", "#ff5252"⟩] "school" "#000000" =
        updateFirstGroup [⟨"school", "#4287f5"⟩, ⟨"work", "#ff5252"⟩] "school" "#000000" ∧
      (groupAdd [⟨"school", "#4287f5"⟩, ⟨"work", "#ff5252"⟩] "school" "#000000").map
          TaskGroup.name =
        [(⟨"school", "#4287f5"⟩ : TaskGroup), ⟨"work", "#ff5252"⟩].map TaskGroup.name ∧
      (groupAdd [⟨"school", "#4287f5"⟩, ⟨"work", "#ff5252"⟩] "school" "#000000").length =
        [(⟨"school", "#4287f5"⟩ : TaskGroup), ⟨"work", "#ff5252"⟩].length ∧
      (groupAdd [⟨"school", "#4287f5"⟩, ⟨"work", "#ff5252"⟩] "school" "#000000").find?
          (fun g => g.name == "school") = some ⟨"school", "#000000"⟩) ∧
    (([(⟨"school", "#4287f5"⟩ : TaskGroup), ⟨"work", "#ff5252"⟩].map TaskGroup.name).Nodup →
      ((groupAdd [⟨"school", "#4287f5"⟩, ⟨"work", "#ff5252"⟩] "personal" "#ff8f00").map
        TaskGroup.name).Nodup) :=
  ⟨(groupAdd_spec [⟨"school", "#4287f5"⟩, ⟨"work", "#ff5252"⟩] "personal" "#ff8f00").2.1,
   (groupAdd_spec [⟨"school", "#4287f5"⟩, ⟨"work", "#ff5252"⟩] "school" "#000000").1,
   (groupAdd_spec [⟨"school", "#4287f5"⟩, ⟨"work", "#ff5252"⟩] "personal" "#ff8f00").2.2⟩

/-! ### C8 — the persisted document round-trips exactly

`Storage.save` writes `{ meta, datas }` through `System.writeJSONFile`
(JSON.stringify) and the constructor reads it back through
`System.readJSONFile`; `System.ts` is absent from the sources, so the
serializer is modelled from the spec (section 6) and the storage-file example
of the README: a JSON object per task, optional attributes omitted when
absent (JSON.stringify drops `undefined` fields), `subtasks` present only
when non-empty. -/

/-- A JSON value. -/
inductive Json : Type where
  | str (s : String)
  | num (n : Nat)
  | arr (l : List Json)
  | obj (fields : List (String × Json))

/-- An optional string attribute: omitted when absent. -/
def encodeOptStr (key : String) : Option String → List (String × Json)
  | none => []
  | some v => [(key, .str v)]

/-- An optional numeric attribute: omitted when absent. -/
def encodeOptNum (key : String) : Option Nat → List (String × Json)
  | none => []
  | some v => [(key, .num v)]

mutual

/-- Modelled from the spec: one task serialized as a JSON object in canonical
attribute order, optional attributes omitted when absent, the subtask array
present only when non-empty. -/
def encodeTask : Task → Json
  | .mk a subs =>
    .obj ([("id", .num a.id), ("name", .str a.name), ("state", .str a.state)] ++
      encodeOptStr "description" a.description ++
      encodeOptNum "priority" a.priority ++
      encodeOptStr "group" a.group ++
      encodeOptStr "dueDate" a.dueDate ++
      (match subs with
       | [] => []
       | s :: ss => [("subtasks", .arr (encodeTaskList (s :: ss)))]))

/-- A forest serialized as a JSON array, order preserved. -/
def encodeTaskList : List Task → List Json
  | [] => []
  | t :: ts => encodeTask t :: encodeTaskList ts

end

mutual

/-- Decode one task object. -/
def decodeTask : Json → Option Task
  | .obj fields => decodeTaskFields fields
  | _ => none
termination_by j => (sizeOf j, 6)

/-- The three mandatory attributes come first. -/
def decodeTaskFields : List (String × Json) → Option Task
  | ("id", .num i) :: ("name", .str nm) :: ("state", .str st) :: rest =>
    decodeTaskOpt1 i nm st rest
  | _ => none
termination_by fields => (sizeOf fields, 5)

/-- Optional `description`. -/
def decodeTaskOpt1 (i : Nat) (nm st : String) : List (String × Json) → Option Task
  | ("description", .str v) :: rest => decodeTaskOpt2 i nm st (some v) rest
  | fields => decodeTaskOpt2 i nm st none fields
termination_by fields => (sizeOf fields, 4)

/-- Optional `priority`. -/
def decodeTaskOpt2 (i : Nat) (nm st : String) (d : Option String) :
    List (String × Json) → Option Task
  | ("priority", .num v) :: rest => decodeTaskOpt3 i nm st d (some v) rest
  | fields => decodeTaskOpt3 i nm st d none fields
termination_by fields => (sizeOf fields, 3)

/-- Optional `group`. -/
def decodeTaskOpt3 (i : Nat) (nm st : String) (d : Option String) (p : Option Nat) :
    List (String × Json) → Option Task
  | ("group", .str v) :: rest => decodeTaskOpt4 i nm st d p (some v) rest
  | fields => decodeTaskOpt4 i nm st d p none fields
termination_by fields => (sizeOf fields, 2)

/-- Optional `dueDate`. -/
def decodeTaskOpt4 (i : Nat) (nm st : String) (d : Option String) (p : Option Nat)
    (g : Option String) : List (String × Json) → Option Task
  | ("dueDate", .str v) :: rest => decodeTaskSubs i nm st d p g (some v) rest
  | fields => decodeTaskSubs i nm st d p g none fields
termination_by fields => (sizeOf fields, 1)

/-- Optional non-empty `subtasks` array, and end of the object. -/
def decodeTaskSubs (i : Nat) (nm st : String) (d : Option String) (p : Option Nat)
    (g : Option String) (dd : Option String) : List (String × Json) → Option Task
  | [] => some (.mk ⟨i, nm, st, d, p, g, dd⟩ [])
  | [("subtasks", .arr l)] => (decodeTaskList l).map (fun ts => .mk ⟨i, nm, st, d, p, g, dd⟩ ts)
  | _ => none
termination_by fields => (sizeOf fields, 0)

/-- Decode a task array. -/
def decodeTaskList : List Json → Option (List Task)
  | [] => some []
  | j :: js =>
    match decodeTask j, decodeTaskList js with
    | some t, some ts => some (t :: ts)
    | _, _ => none
termination_by l => (sizeOf l, 7)

end

mutual

/-- A template subtask skeleton serialized like a task, minus the id; the
state is itself optional in a skeleton. -/
def encodeSkel : Skel → Json
  | .mk a subs =>
    .obj ([("name", .str a.name)] ++
      encodeOptStr "state" a.state ++
      encodeOptStr "description" a.description ++
      encodeOptNum "priority" a.priority ++
      encodeOptStr "group" a.group ++
      encodeOptStr "dueDate" a.dueDate ++
      (match subs with
       | [] => []
       | s :: ss => [("subtasks", .arr (encodeSkelList (s :: ss)))]))

def encodeSkelList : List Skel → List Json
  | [] => []
  | s :: ss => encodeSkel s :: encodeSkelList ss

end

mutual

def decodeSkel : Json → Option Skel
  | .obj (("name", .str nm) :: rest) => decodeSkelOpt0 nm rest
  | _ => none
termination_by j => (sizeOf j, 6)

/-- Optional `state`. -/
def decodeSkelOpt0 (nm : String) : List (String × Json) → Option Skel
  | ("state", .str v) :: rest => decodeSkelOpt1 nm (some v) rest
  | fields => decodeSkelOpt1 nm none fields
termination_by fields => (sizeOf fields, 5)

/-- Optional `description`. -/
def decodeSkelOpt1 (nm : String) (st : Option String) : List (String × Json) → Option Skel
  | ("description", .str v) :: rest => decodeSkelOpt2 nm st (some v) rest
  | fields => decodeSkelOpt2 nm st none fields
termination_by fields => (sizeOf fields, 4)

/-- Optional `priority`. -/
def decodeSkelOpt2 (nm : String) (st d : Option String) : List (String × Json) → Option Skel
  | ("priority", .num v) :: rest => decodeSkelOpt3 nm st d (some v) rest
  | fields => decodeSkelOpt3 nm st d none fields
termination_by fields => (sizeOf fields, 3)

/-- Optional `group`. -/
def decodeSkelOpt3 (nm : String) (st d : Option String) (p : Option Nat) :
    List (String × Json) → Option Skel
  | ("group", .str v) :: rest => decodeSkelOpt4 nm st d p (some v) rest
  | fields => decodeSkelOpt4 nm st d p none fields
termination_by fields => (sizeOf fields, 2)

/-- Optional `dueDate`. -/
def decodeSkelOpt4 (nm : String) (st d : Option String) (p : Option Nat) (g : Option String) :
    List (String × Json) → Option Skel
  | ("dueDate", .str v) :: rest => decodeSkelSubs nm st d p g (some v) rest
  | fields => decodeSkelSubs nm st d p g none fields
termination_by fields => (sizeOf fields, 1)

/-- Optional non-empty `subtasks` array, and end of the object. -/
def decodeSkelSubs (nm : String) (st d : Option String) (p : Option Nat) (g dd : Option String) :
    List (String × Json) → Option Skel
  | [] => some (.mk ⟨nm, st, d, p, g, dd⟩ [])
  | [("subtasks", .arr l)] => (decodeSkelList l).map (fun ss => .mk ⟨nm, st, d, p, g, dd⟩ ss)
  | _ => none
termination_by fields => (sizeOf fields, 0)

def decodeSkelList : List Json → Option (List Skel)
  | [] => some []
  | j :: js =>
    match decodeSkel j, decodeSkelList js with
    | some s, some ss => some (s :: ss)
    | _, _ => none
termination_by l => (sizeOf l, 7)

end

/-! Metadata registries: flat objects, serialized field by field. -/

def encodeState (s : TaskState) : Json :=
  .obj [("name", .str s.name), ("hexColor", .str s.hexColor), ("icon", .str s.icon)]

def decodeState : Json → Option TaskState
  | .obj [("name", .str n), ("hexColor", .str c), ("icon", .str i)] => some ⟨n, c, i⟩
  | _ => none

def encodeGroup (g : TaskGroup) : Json :=
  .obj [("name", .str g.name), ("hexColor", .str g.hexColor)]

def decodeGroup : Json → Option TaskGroup
  | .obj [("name", .str n), ("hexColor", .str c)] => some ⟨n, c⟩
  | _ => none

def encodeTemplate (t : TaskTemplate) : Json :=
  .obj [("name", .str t.name), ("subtasks", .arr (encodeSkelList t.subtasks))]

def decodeTemplate : Json → Option TaskTemplate
  | .obj [("name", .str n), ("subtasks", .arr l)] =>
    (decodeSkelList l).map (fun ss => ⟨n, ss⟩)
  | _ => none

def decodeListWith (dec : Json → Option α) : List Json → Option (List α)
  | [] => some []
  | j :: js =>
    match dec j, decodeListWith dec js with
    | some x, some xs => some (x :: xs)
    | _, _ => none

/-- The whole `meta` object of the persisted document. -/
def encodeMeta (m : Meta) : Json :=
  .obj [("states", .arr (m.states.map encodeState)),
        ("groups", .arr (m.groups.map encodeGroup)),
        ("templates", .arr (m.templates.map encodeTemplate))]

def decodeMeta : Json → Option Meta
  | .obj [("states", .arr ls), ("groups", .arr lg), ("templates", .arr lt)] =>
    match decodeListWith decodeState ls, decodeListWith decodeGroup lg,
        decodeListWith decodeTemplate lt with
    | some sts, some gs, some ts => some ⟨sts, gs, ts⟩
    | _, _, _ => none
  | _ => none

/-- The whole persisted document `{ meta, datas }` written by `Storage.save`. -/
def encodeStorageFile (d : StorageFile) : Json :=
  .obj [("meta", encodeMeta d.meta), ("datas", .arr (encodeTaskList d.datas))]

def decodeStorageFile : Json → Option StorageFile
  | .obj [("meta", jm), ("datas", .arr l)] =>
    match decodeMeta jm, decodeTaskList l with
    | some m, some ts => some ⟨m, ts⟩
    | _, _ => none
  | _ => none

mutual

theorem decode_encodeTask : ∀ t : Task, decodeTask (encodeTask t) = some t
  | .mk a subs => by
    obtain ⟨i, nm, st, d, p, g, dd⟩ := a
    cases subs with
    | nil =>
      cases d <;> cases p <;> cases g <;> cases dd <;>
        simp [encodeTask, encodeTaskList, encodeOptStr, encodeOptNum, decodeTask,
          decodeTaskFields, decodeTaskOpt1, decodeTaskOpt2, decodeTaskOpt3, decodeTaskOpt4,
          decodeTaskSubs]
    | cons s ss =>
      have hl := decode_encodeTaskList (s :: ss)
      cases d <;> cases p <;> cases g <;> cases dd <;>
        simp [encodeTask, encodeOptStr, encodeOptNum, decodeTask,
          decodeTaskFields, decodeTaskOpt1, decodeTaskOpt2, decodeTaskOpt3, decodeTaskOpt4,
          decodeTaskSubs, hl]

theorem decode_encodeTaskList : ∀ ts : List Task, decodeTaskList (encodeTaskList ts) = some ts
  | [] => by simp [encodeTaskList, decodeTaskList]
  | t :: ts => by
    have h1 := decode_encodeTask t
    have h2 := decode_encodeTaskList ts
    simp [encodeTaskList, decodeTaskList, h1, h2]

end

mutual

theorem decode_encodeSkel : ∀ s : Skel, decodeSkel (encodeSkel s) = some s
  | .mk a subs => by
    obtain ⟨nm, st, d, p, g, dd⟩ := a
    cases subs with
    | nil =>
      cases st <;> cases d <;> cases p <;> cases g <;> cases dd <;>
        simp [encodeSkel, encodeSkelList, encodeOptStr, encodeOptNum, decodeSkel,
          decodeSkelOpt0, decodeSkelOpt1, decodeSkelOpt2, decodeSkelOpt3, decodeSkelOpt4,
          decodeSkelSubs]
    | cons s ss =>
      have hl := decode_encodeSkelList (s :: ss)
      cases st <;> cases d <;> cases p <;> cases g <;> cases dd <;>
        simp [encodeSkel, encodeOptStr, encodeOptNum, decodeSkel,
          decodeSkelOpt0, decodeSkelOpt1, decodeSkelOpt2, decodeSkelOpt3, decodeSkelOpt4,
          decodeSkelSubs, hl]

theorem decode_encodeSkelList : ∀ ss : List Skel, decodeSkelList (encodeSkelList ss) = some ss
  | [] => by simp [encodeSkelList, decodeSkelList]
  | s :: ss => by
    have h1 := decode_encodeSkel s
    have h2 := decode_encodeSkelList ss
    simp [encodeSkelList, decodeSkelList, h1, h2]

end

theorem decode_encodeState (s : TaskState) : decodeState (encodeState s) = some s := by
  rw [encodeState, decodeState]

theorem decode_encodeGroup (g : TaskGroup) : decodeGroup (encodeGroup g) = some g := by
  rw [encodeGroup, decodeGroup]

theorem decode_encodeTemplate (t : TaskTemplate) : decodeTemplate (encodeTemplate t) = some t := by
  rw [encodeTemplate, decodeTemplate, decode_encodeSkelList t.subtasks]
  rfl

theorem decodeListWith_map (dec : Json → Option α) (enc : α → Json)
    (h : ∀ x, dec (enc x) = some x) : ∀ l : List α, decodeListWith dec (l.map enc) = some l := by
  intro l
  induction l with
  | nil => rw [List.map_nil, decodeListWith]
  | cons x xs ih =>
    rw [List.map_cons, decodeListWith, h x, ih]

theorem decode_encodeMeta (m : Meta) : decodeMeta (encodeMeta m) = some m := by
  rw [encodeMeta, decodeMeta,
    decodeListWith_map decodeState encodeState decode_encodeState m.states,
    decodeListWith_map decodeGroup encodeGroup decode_encodeGroup m.groups,
    decodeListWith_map decodeTemplate encodeTemplate decode_encodeTemplate m.templates]

/-- C8: serializing the whole document (metadata and forest) and deserializing
it again reproduces the document exactly — nesting of subtasks, declared
order, and every attribute value — and the encoding is injective, so an
omitted optional field and a present-but-empty one remain distinguishable
states. -/
theorem storage_roundtrip (d : StorageFile) :
    decodeStorageFile (encodeStorageFile d) = some d ∧
    ∀ d2 : StorageFile, encodeStorageFile d2 = encodeStorageFile d → d2 = d := by
  have hrt : ∀ dd : StorageFile, decodeStorageFile (encodeStorageFile dd) = some dd := by
    intro dd
    rw [encodeStorageFile, decodeStorageFile, decode_encodeMeta dd.meta,
      decode_encodeTaskList dd.datas]
  refine ⟨hrt d, ?_⟩
  intro d2 henc
  have h1 := hrt d2
  rw [henc, hrt d] at h1
  exact (Option.some.inj h1).symm

/-- Witness for C8: the default storage document round-trips to itself, and
encoding-equality at that document forces document equality. -/
theorem storage_roundtrip_witness :
    decodeStorageFile (encodeStorageFile ⟨exMeta, exForest⟩) =
      some (⟨exMeta, exForest⟩ : StorageFile) ∧
    (⟨exMeta, exForest⟩ : StorageFile) = ⟨exMeta, exForest⟩ :=
  ⟨(storage_roundtrip ⟨exMeta, exForest⟩).1,
   (storage_roundtrip ⟨exMeta, exForest⟩).2 ⟨exMeta, exForest⟩ rfl⟩

/-- An explicit consequence recorded next to C8's theorem: a task with an
omitted description and a task with a present-but-empty description serialize
differently and both survive the round-trip unchanged. -/
theorem storage_roundtrip_absence_example :
    decodeTask (encodeTask (exTask 0 "a" "todo" [])) = some (exTask 0 "a" "todo" []) ∧
    encodeTask (.mk ⟨0, "a", "todo", some "", none, none, none⟩ []) ≠
      encodeTask (.mk ⟨0, "a", "todo", none, none, none, none⟩ []) := by
  constructor
  · exact decode_encodeTask (exTask 0 "a" "todo" [])
  · intro h
    have h1 := decode_encodeTask (.mk ⟨0, "a", "todo", some "", none, none, none⟩ [])
    rw [h, decode_encodeTask (.mk ⟨0, "a", "todo", none, none, none, none⟩ [])] at h1
    have := Option.some.inj h1
    cases this

end CLIManager
